import Mathlib

/-!
Verification of the 2048 grid engine (`src/2048.cpp`).

The engine is shallowly embedded: machine integers become `Nat` with explicit
`% 2 ^ 32` (for the `uint32_t` PRNG state and the `unsigned int` score) and
`% 256` (for the `uint8_t` tile exponents) at the points where the C++ code
truncates; the board `std::array<uint8_t, size * size>` becomes a `List Nat`
of length `size * size`; the raw-pointer stride arithmetic of `move_helper`
becomes `Int` index arithmetic over the flat board; the C++
`__builtin_unreachable()` marker in `spawn_new_number` becomes the `none`
branch of an `Option`-returning function.
-/

namespace Game2048

/-- Step of the 32-bit Xorshift PRNG (`Xorshift::operator()` in the source):
`state ^= state << 13; state ^= state >> 17; return state ^= state << 15;`,
each assignment truncated to 32 bits by the `uint32_t` storage. -/
def xorshiftNext (s : Nat) : Nat :=
  let s1 := (s ^^^ (s <<< 13)) % 2 ^ 32
  let s2 := (s1 ^^^ (s1 >>> 17)) % 2 ^ 32
  (s2 ^^^ (s2 <<< 15)) % 2 ^ 32

/-- Constructor `Xorshift(seed) : state(seed == 0 ? 1 : seed)`. -/
def xorshiftInit (seed : Nat) : Nat :=
  if seed = 0 then 1 else seed

/-- Modelled from the spec: the canonical 13/17/5 xorshift32 step that the
spec claims the source reproduces (`left 13, right 17, left 5 canonical
variant`). The source actually shifts left by 15 in the third stage. -/
def canonicalXorshift32 (s : Nat) : Nat :=
  let s1 := (s ^^^ (s <<< 13)) % 2 ^ 32
  let s2 := (s1 ^^^ (s1 >>> 17)) % 2 ^ 32
  (s2 ^^^ (s2 <<< 5)) % 2 ^ 32

/-- The 13/17/15 xorshift32 step expressed on 32-bit machine words, used to
state that `xorshiftNext` implements exactly this word-level algorithm. -/
def xorshift32Word (s : BitVec 32) : BitVec 32 :=
  let s1 := s ^^^ (s <<< 13)
  let s2 := s1 ^^^ (s1 >>> 17)
  s2 ^^^ (s2 <<< 15)

/-- `k`-th output of the engine's PRNG from a given seed. -/
def xorshiftSeq (seed : Nat) (k : Nat) : Nat :=
  xorshiftNext ((xorshiftNext)^[k] (xorshiftInit seed))

/-- `k`-th output of the word-level 13/17/15 xorshift32 from a given seed. -/
def xorshiftWordSeq (seed : Nat) (k : Nat) : Nat :=
  (xorshift32Word ((xorshift32Word)^[k]
    (BitVec.ofNat 32 (xorshiftInit seed)))).toNat

/-- `enum class direction { up, down, left, right }`. -/
inductive Dir : Type
  | up
  | down
  | left
  | right
deriving DecidableEq, Repr

/-- Underlying integral value of `direction`
(`up = 0b00, down = 0b01, left = 0b10, right = 0b11`). -/
def dirIntegral : Dir → Nat
  | Dir.up => 0
  | Dir.down => 1
  | Dir.left => 2
  | Dir.right => 3

/-- `enum class State { running, ended }`. -/
inductive GState : Type
  | running
  | ended
deriving DecidableEq, Repr

/-- The fields of `Grid<size>`: PRNG state, `empty_cells_count_`, `score_`,
`state_` and the flat board `grid_` (tile exponents, row-major). -/
structure GridState : Type where
  prng : Nat
  empty : Nat
  score : Nat
  state : GState
  grid : List Nat
deriving DecidableEq, Repr

/-- Number of zero entries of the board, the quantity `empty_cells_count_`
is documented to track. -/
def countZeros : List Nat → Nat
  | [] => 0
  | x :: t => (if x = 0 then 1 else 0) + countZeros t

/-- Value stored into the chosen cell by `spawn_new_number`:
`x = ((prng_() / 4) == 0) + 1`, applied to the generator output `r`. -/
def spawnValue (r : Nat) : Nat :=
  (if r / 4 = 0 then 1 else 0) + 1

/-- The scan loop of `spawn_new_number`: walk the board; at the `spawn_loc`-th
empty cell draw the generator once more and store `spawnValue` of the draw.
Falling off the end is the C++ `__builtin_unreachable()`, modelled as `none`.
Returns the updated board and the updated PRNG state. -/
def spawnAux : List Nat → Nat → Nat → Option (List Nat × Nat)
  | [], _, _ => none
  | x :: xs, loc, p =>
    if loc = 0 ∧ x = 0 then
      some (spawnValue (xorshiftNext p) :: xs, xorshiftNext p)
    else if x = 0 then
      (spawnAux xs (loc - 1) p).map (fun r => (x :: r.1, r.2))
    else
      (spawnAux xs loc p).map (fun r => (x :: r.1, r.2))

/-- `Grid::spawn_new_number`: draw `prng_()`, reduce it modulo
`empty_cells_count_` to pick which empty cell receives the tile, scan for that
cell, store the tile and decrement `empty_cells_count_`. (For
`empty = 0` the C++ `%` is undefined behaviour; `Nat` yields `p % 0 = p` and
the scan then returns `none`.) -/
def spawnNewNumber (s : GridState) : Option GridState :=
  let p1 := xorshiftNext s.prng
  let loc := p1 % s.empty
  match spawnAux s.grid loc p1 with
  | none => none
  | some r => some { s with grid := r.1, prng := r.2, empty := s.empty - 1 }

/-- Mutable state of `Grid::move_helper`: the board, `empty_cells_count_`,
`score_` and the local `modified` flag. -/
structure MH : Type where
  grid : List Nat
  empty : Nat
  score : Nat
  modified : Bool
deriving DecidableEq, Repr

/-- `top_start = grid_.begin() + (size * size - 1) * (dir_integral & 1)`. -/
def topStart (n : Nat) (d : Dir) : Int :=
  ((n * n - 1) * (dirIntegral d &&& 1) : Nat)

/-- `top_stride` from the `switch` in `move_helper`. -/
def topStride (n : Nat) : Dir → Int
  | Dir.up => 1
  | Dir.down => -1
  | Dir.left => (n : Int)
  | Dir.right => -(n : Int)

/-- `it_stride` from the `switch` in `move_helper`. -/
def itStride (n : Nat) : Dir → Int
  | Dir.up => (n : Int)
  | Dir.down => -(n : Int)
  | Dir.left => 1
  | Dir.right => -1

/-- Swap of two board cells, `std::iter_swap(it, top)`. -/
def listSwap (g : List Nat) (a b : Nat) : List Nat :=
  (g.set a (g.getD b 0)).set b (g.getD a 0)

/-- Body of the inner loop of `move_helper` at iterator positions `top` and
`it` (flat board indices): skip an empty `it`; slide into an empty cursor;
merge equal cells (clear `it`, bump `empty`, add `1 << *top` to the score,
increment the cursor cell's `uint8_t` exponent, advance the cursor); otherwise
advance the cursor and close the gap if there is one. Returns the updated
state and the updated cursor. -/
def innerStep (is : Int) (st : MH) (top it : Int) : MH × Int :=
  let vIt := st.grid.getD it.toNat 0
  let vTop := st.grid.getD top.toNat 0
  if vIt = 0 then (st, top)
  else if vTop = 0 then
    ({ st with grid := listSwap st.grid it.toNat top.toNat, modified := true }, top)
  else if vIt = vTop then
    ({ grid := (st.grid.set it.toNat 0).set top.toNat ((vTop + 1) % 256),
       empty := st.empty + 1,
       score := (st.score + 2 ^ vTop) % 2 ^ 32,
       modified := true }, top + is)
  else
    let top2 := top + is
    if top2 = it then (st, top2)
    else ({ st with grid := listSwap st.grid it.toNat top2.toNat, modified := true }, top2)

/-- Inner loop of `move_helper` over `j = 1, ..., size - 1` (the first
argument counts the remaining iterations); `it = lineTop + j * it_stride`. -/
def innerLoop (is lineTop : Int) : Nat → Int → Nat → MH → MH
  | 0, _, _, st => st
  | k + 1, top, j, st =>
    let r := innerStep is st top (lineTop + (j : Int) * is)
    innerLoop is lineTop k r.2 (j + 1) r.1

/-- Outer loop of `move_helper` over the `size` lines; each line `i` starts
with the cursor at `top_start + i * top_stride`. -/
def outerLoop (n : Nat) (d : Dir) : Nat → Nat → MH → MH
  | 0, _, st => st
  | k + 1, i, st =>
    let lt := topStart n d + (i : Int) * topStride n d
    outerLoop n d k (i + 1) (innerLoop (itStride n d) lt (n - 1) lt 1 st)

/-- `Grid::move_helper`: run the slide-and-merge pass over all lines,
starting with `modified = false`. -/
def moveHelper (n : Nat) (d : Dir) (g : List Nat) (e sc : Nat) : MH :=
  outerLoop n d n 0 ⟨g, e, sc, false⟩

/-- `Grid::move`: if the board is full, set `state_ = ended` and return;
otherwise run `move_helper` and spawn a tile exactly when it modified the
board. -/
def move (n : Nat) (s : GridState) (d : Dir) : Option GridState :=
  if s.empty = 0 then some { s with state := GState.ended }
  else
    let r := moveHelper n d s.grid s.empty s.score
    if r.modified then
      spawnNewNumber { s with grid := r.grid, empty := r.empty, score := r.score }
    else
      some { s with grid := r.grid, empty := r.empty, score := r.score }

/-- `Grid::reset`: clear the board, restore `empty_cells_count_ = size²`,
spawn one tile. Neither `score_` nor `state_` is written. -/
def reset (n : Nat) (s : GridState) : Option GridState :=
  spawnNewNumber { s with grid := List.replicate (n * n) 0, empty := n * n }

/-- `Grid::Grid(seed)`: empty board, `empty = size²`, `score = 0`, state
`running`, then one spawn. -/
def initGrid (n : Nat) (seed : Nat) : Option GridState :=
  spawnNewNumber
    { prng := xorshiftInit seed, empty := n * n, score := 0,
      state := GState.running, grid := List.replicate (n * n) 0 }

/-- Sequence of `move` calls (used to state the temporal game-over claim). -/
def movesFold (n : Nat) (s : GridState) : List Dir → Option GridState
  | [] => some s
  | d :: ds =>
    match move n s d with
    | none => none
    | some s' => movesFold n s' ds

/-! ### Specification-side description of one line of the pass

The following definitions are written from the spec's description of the
slide-and-merge pass ("compact the tiles toward the leading edge, merging
each equal adjacent pair at most once"), to be compared with the
source-derived `moveHelper`. -/

/-- Nonzero tiles of a line, in order (the spec's "compaction"). -/
def compact (l : List Nat) : List Nat :=
  l.filter (fun v => v ≠ 0)

/-- Modelled from the spec: merge equal adjacent pairs of the compacted line
left-to-right, each tile participating in at most one merge. -/
def mergePairs : List Nat → List Nat
  | [] => []
  | [a] => [a]
  | a :: b :: t => if a = b then (a + 1) :: mergePairs t else a :: mergePairs (b :: t)

/-- Number of merges `mergePairs` performs. -/
def mergeCount : List Nat → Nat
  | [] => 0
  | [_] => 0
  | a :: b :: t => if a = b then 1 + mergeCount t else mergeCount (b :: t)

/-- Score contribution of the merges of `mergePairs`: each merge of two
tiles of exponent `a` contributes `2 ^ a`. -/
def mergeScore : List Nat → Nat
  | [] => 0
  | [_] => 0
  | a :: b :: t => if a = b then 2 ^ a + mergeScore t else mergeScore (b :: t)

/-- Spec-side result of sliding a line of length `n`: merged compaction at
the leading edge, zeros behind. -/
def slideSpec (n : Nat) (l : List Nat) : List Nat :=
  mergePairs (compact l) ++ List.replicate (n - (mergePairs (compact l)).length) 0

/-- Flat index of the `j`-th cell of line `i` for direction `d`
(`top_start + i * top_stride + j * it_stride`). -/
def posNat (n : Nat) (d : Dir) (i j : Nat) : Nat :=
  (topStart n d + (i : Int) * topStride n d + (j : Int) * itStride n d).toNat

/-- The `i`-th line of the board for direction `d`, in processing order. -/
def lineOf (n : Nat) (g : List Nat) (d : Dir) (i : Nat) : List Nat :=
  (List.range n).map (fun j => g.getD (posNat n d i j) 0)

/-! ### A line-local restatement of the inner loop

`innerStep` only reads and writes cells of the current line, at offsets
`0, ..., size - 1` from the line's start. `LS`/`lineStep`/`lineLoop` are the
same algorithm with those offsets used directly as indices into the extracted
line; a simulation lemma below connects the two. -/

/-- State of the inner loop restricted to one line: the line's cells, the
cursor offset, and the shared `empty`/`score`/`modified`. -/
structure LS : Type where
  l : List Nat
  top : Nat
  empty : Nat
  score : Nat
  modified : Bool
deriving DecidableEq, Repr

/-- Body of the inner loop on the extracted line, cell offset `j`. -/
def lineStep (st : LS) (j : Nat) : LS :=
  let vj := st.l.getD j 0
  let vt := st.l.getD st.top 0
  if vj = 0 then st
  else if vt = 0 then { st with l := listSwap st.l j st.top, modified := true }
  else if vj = vt then
    { l := (st.l.set j 0).set st.top ((vt + 1) % 256), top := st.top + 1,
      empty := st.empty + 1, score := (st.score + 2 ^ vt) % 2 ^ 32,
      modified := true }
  else if st.top + 1 = j then { st with top := st.top + 1 }
  else { st with l := listSwap st.l j (st.top + 1), top := st.top + 1, modified := true }

/-- Inner loop on the extracted line over `j = 1, ..., size - 1`. -/
def lineLoop : Nat → Nat → LS → LS
  | 0, _, st => st
  | k + 1, j, st => lineLoop k (j + 1) (lineStep st j)

/-! ### Incremental form of `mergePairs`

`mrun` processes the compacted line one tile at a time, carrying the
committed output `acc`, the still-mergeable cell `pend`, the number of merges
and the score they add; it is the loop invariant's view of `mergePairs`. -/

/-- Fold state for the incremental merge. -/
structure MState : Type where
  acc : List Nat
  pend : Option Nat
  cnt : Nat
  scr : Nat
deriving DecidableEq, Repr

/-- One tile of the compacted line fed to the incremental merge. -/
def mstep (m : MState) (v : Nat) : MState :=
  match m.pend with
  | none => { m with pend := some v }
  | some p =>
    if v = p then ⟨m.acc ++ [p + 1], none, m.cnt + 1, m.scr + 2 ^ p⟩
    else ⟨m.acc ++ [p], some v, m.cnt, m.scr⟩

/-- Incremental merge of a compacted line. -/
def mrun (c : List Nat) : MState :=
  c.foldl mstep ⟨[], none, 0, 0⟩

/-- Flat board index of the cell at offset `t` along a line that starts at
`lt` and advances with stride `is`. -/
def posL (lt is : Int) (t : Nat) : Nat :=
  (lt + (t : Int) * is).toNat

/-- A line placement is admissible when the stride is nonzero and every cell
of the line lies inside the board. -/
def GoodLine (lt is : Int) (n L : Nat) : Prop :=
  is ≠ 0 ∧ ∀ t, t < n → 0 ≤ lt + (t : Int) * is ∧ lt + (t : Int) * is < (L : Int)

/-- Relation between the flat `move_helper` state and the line-local state:
the line-offset cells mirror the extracted line, all other cells still hold
their values from the board `g0` at the start of the line, and the shared
counters agree. -/
def SimRel (lt is : Int) (n : Nat) (g0 : List Nat) (st : MH) (ps : LS) : Prop :=
  st.grid.length = g0.length ∧ ps.l.length = n ∧
  (∀ t, t < n → st.grid.getD (posL lt is t) 0 = ps.l.getD t 0) ∧
  (∀ q, (∀ t, t < n → q ≠ posL lt is t) → st.grid.getD q 0 = g0.getD q 0) ∧
  st.empty = ps.empty ∧ st.score = ps.score ∧ st.modified = ps.modified

/-- Invariant of the outer loop over the lines of a move: lines before `i`
are already slid and merged, lines from `i` on are untouched, and the
counters have accumulated the merges of the processed lines. -/
def OInv (n : Nat) (d : Dir) (g0 : List Nat) (e0 sc0 : Nat) (i : Nat) (st : MH) : Prop :=
  st.grid.length = g0.length ∧
  (∀ i', i ≤ i' → i' < n → ∀ j, j < n →
    st.grid.getD (posNat n d i' j) 0 = g0.getD (posNat n d i' j) 0) ∧
  (∀ i', i' < i → lineOf n st.grid d i' = slideSpec n (lineOf n g0 d i')) ∧
  st.empty = e0 + ∑ x ∈ Finset.range i, mergeCount (compact (lineOf n g0 d x)) ∧
  st.score = (sc0 + ∑ x ∈ Finset.range i, mergeScore (compact (lineOf n g0 d x))) % 2 ^ 32 ∧
  countZeros st.grid =
    countZeros g0 + ∑ x ∈ Finset.range i, mergeCount (compact (lineOf n g0 d x)) ∧
  (st.modified = true ↔ ∃ i', i' < i ∧ slideSpec n (lineOf n g0 d i') ≠ lineOf n g0 d i')

/-- Shape of the working line with respect to a given merge state `m`:
committed output at the front, the still-mergeable cell at the cursor, zeros
up to `j`, untouched tail. -/
def BInvAt (m : MState) (l0 : List Nat) (e0 sc0 : Nat) (j : Nat) (st : LS) : Prop :=
  st.l.length = l0.length ∧
  (∀ k, k < m.acc.length → st.l.getD k 0 = m.acc.getD k 0) ∧
  (∀ k, k < m.pend.toList.length →
    st.l.getD (m.acc.length + k) 0 = m.pend.toList.getD k 0) ∧
  (∀ k, m.acc.length + m.pend.toList.length ≤ k → k < j → st.l.getD k 0 = 0) ∧
  (∀ k, j ≤ k → st.l.getD k 0 = l0.getD k 0) ∧
  st.top = m.acc.length ∧
  st.empty = e0 + m.cnt ∧
  st.score = (sc0 + m.scr) % 2 ^ 32 ∧
  m.acc.length + m.pend.toList.length ≤ j ∧
  m.acc.length < j

/-- Invariant of the inner loop relating the working line to the incremental
merge of the nonzero tiles seen so far. -/
def BInv (l0 : List Nat) (e0 sc0 : Nat) (j : Nat) (st : LS) : Prop :=
  BInvAt (mrun (compact (l0.take j))) l0 e0 sc0 j st

/-- Invariant of the inner loop used to show that once the `modified` flag is
set some cell differs from its original value for good: either the flag is
still clear and the line is untouched, or an already-final cell (strictly
before the cursor) differs from the original, or the cursor cell holds a
moved-in tile over an originally empty cell. -/
def AInv (l0 : List Nat) (j : Nat) (st : LS) : Prop :=
  st.l.length = l0.length ∧
  (∀ k, j ≤ k → st.l.getD k 0 = l0.getD k 0) ∧
  st.top < j ∧
  (st.modified = false →
    st.l = l0 ∧ (∀ k, st.top < k → k < j → st.l.getD k 0 = 0)) ∧
  (st.modified = true → ∃ p,
    (p < st.top ∧ st.l.getD p 0 ≠ l0.getD p 0) ∨
    (p = st.top ∧ st.l.getD p 0 ≠ 0 ∧ st.l.getD p 0 ≤ 254 ∧ l0.getD p 0 = 0))

/-! ## Basic list lemmas

Small `getD`/`set`-based facts about boards, proved by induction so that the
development is self-contained. -/

theorem getD_oob (l : List Nat) (k : Nat) (h : l.length ≤ k) : l.getD k 0 = 0 := by
  induction l generalizing k with
  | nil => simp [List.getD]
  | cons x t ih =>
    cases k with
    | zero => simp at h
    | succ k => simpa using ih k (by simpa using h)

theorem getD_set_self (l : List Nat) (k v : Nat) (h : k < l.length) :
    (l.set k v).getD k 0 = v := by
  induction l generalizing k with
  | nil => simp at h
  | cons x t ih =>
    cases k with
    | zero => rfl
    | succ k => simpa using ih k (by simpa using h)

theorem getD_set_other (l : List Nat) (i k v : Nat) (h : k ≠ i) :
    (l.set i v).getD k 0 = l.getD k 0 := by
  induction l generalizing i k with
  | nil => simp
  | cons x t ih =>
    cases i with
    | zero =>
      cases k with
      | zero => exact absurd rfl h
      | succ k => rfl
    | succ i =>
      cases k with
      | zero => rfl
      | succ k => simpa using ih i k (by omega)

theorem getD_append_left (a b : List Nat) (k : Nat) (h : k < a.length) :
    (a ++ b).getD k 0 = a.getD k 0 := by
  induction a generalizing k with
  | nil => simp at h
  | cons x t ih =>
    cases k with
    | zero => rfl
    | succ k => simpa using ih k (by simpa using h)

theorem getD_append_right (a b : List Nat) (k : Nat) :
    (a ++ b).getD (a.length + k) 0 = b.getD k 0 := by
  induction a with
  | nil => simp
  | cons x t ih => simp only [List.cons_append, List.length_cons, Nat.succ_add, List.getD_cons_succ]; exact ih

theorem getD_replicate (m k : Nat) : (List.replicate m (0 : Nat)).getD k 0 = 0 := by
  induction m generalizing k with
  | zero => simp [List.getD]
  | succ m ih =>
    cases k with
    | zero => rfl
    | succ k => rw [List.replicate_succ, List.getD_cons_succ]; exact ih k

theorem ext_getD (a b : List Nat) (hl : a.length = b.length)
    (h : ∀ k, k < a.length → a.getD k 0 = b.getD k 0) : a = b := by
  induction a generalizing b with
  | nil => cases b <;> simp_all
  | cons x t ih =>
    cases b with
    | nil => simp at hl
    | cons y u =>
      have h0 : x = y := by simpa [List.getD] using h 0 (by simp)
      have ht : t = u := by
        refine ih u (by simpa using hl) (fun k hk => ?_)
        simpa using h (k + 1) (by simpa using hk)
      rw [h0, ht]

theorem getD_mem (l : List Nat) (k : Nat) (h : k < l.length) : l.getD k 0 ∈ l := by
  induction l generalizing k with
  | nil => simp at h
  | cons x t ih =>
    cases k with
    | zero => simp [List.getD]
    | succ k =>
      simp only [List.getD_cons_succ]
      exact List.mem_cons_of_mem _ (ih k (by simpa using h))

theorem countZeros_append (a b : List Nat) :
    countZeros (a ++ b) = countZeros a + countZeros b := by
  induction a with
  | nil => simp [countZeros]
  | cons x t ih => simp [countZeros, ih]; omega

theorem countZeros_replicate (m : Nat) : countZeros (List.replicate m 0) = m := by
  induction m with
  | zero => rfl
  | succ m ih => simp [List.replicate_succ, countZeros, ih]; omega

theorem countZeros_set_spawn (l : List Nat) (k v : Nat) (hk : k < l.length)
    (h0 : l.getD k 0 = 0) (hv : v ≠ 0) :
    countZeros (l.set k v) + 1 = countZeros l := by
  induction l generalizing k with
  | nil => simp at hk
  | cons x t ih =>
    cases k with
    | zero =>
      have : x = 0 := h0
      simp [countZeros, this, hv]; omega
    | succ k =>
      have := ih k (by simpa using hk) (by simpa using h0)
      simp only [List.set_cons_succ, countZeros]
      omega

theorem countZeros_compact_length (l : List Nat) :
    countZeros l + (compact l).length = l.length := by
  induction l with
  | nil => rfl
  | cons x t ih =>
    by_cases hx : x = 0 <;> simp [countZeros, compact, hx] at ih ⊢ <;> omega

/-! ## The PRNG: claims C4 and C3 -/

theorem xor_mod_two_pow (a b n : Nat) :
    (a ^^^ b) % 2 ^ n = (a % 2 ^ n) ^^^ (b % 2 ^ n) := by
  apply Nat.eq_of_testBit_eq
  intro i
  simp only [Nat.testBit_mod_two_pow, Nat.testBit_xor]
  by_cases h : i < n <;> simp [h]

theorem xorshift_stage_left (x : BitVec 32) (k : Nat) :
    (x.toNat ^^^ (x.toNat <<< k)) % 2 ^ 32 = (x ^^^ (x <<< k)).toNat := by
  rw [xor_mod_two_pow, Nat.mod_eq_of_lt x.isLt, BitVec.toNat_xor, BitVec.toNat_shiftLeft]

theorem xorshift_stage_right (x : BitVec 32) (k : Nat) :
    (x.toNat ^^^ (x.toNat >>> k)) % 2 ^ 32 = (x ^^^ (x >>> k)).toNat := by
  have h : (x >>> k).toNat = x.toNat >>> k := rfl
  rw [BitVec.toNat_xor, h]
  exact Nat.mod_eq_of_lt (Nat.xor_lt_two_pow x.isLt
    (lt_of_le_of_lt (by rw [Nat.shiftRight_eq_div_pow]; exact Nat.div_le_self _ _) x.isLt))

theorem xorshiftNext_toNat (s : BitVec 32) :
    xorshiftNext s.toNat = (xorshift32Word s).toNat := by
  simp only [xorshiftNext, xorshift32Word]
  rw [xorshift_stage_left s 13, xorshift_stage_right (s ^^^ s <<< 13) 17,
    xorshift_stage_left _ 15]

theorem xorshiftNext_iterate_toNat (m : Nat) (s : BitVec 32) :
    ((xorshift32Word)^[m] s).toNat = (xorshiftNext)^[m] s.toNat := by
  induction m with
  | zero => rfl
  | succ m ih =>
    rw [Function.iterate_succ_apply', Function.iterate_succ_apply',
      ← xorshiftNext_toNat, ih]

theorem xorshiftInit_lt (seed : Nat) (h : seed < 2 ^ 32) : xorshiftInit seed < 2 ^ 32 := by
  unfold xorshiftInit
  split <;> omega

/-- Claim C4, counterexample: the PRNG step does not agree with the canonical
13/17/5 xorshift32 claimed by the spec; already the first output from the
remapped seed 1 differs. -/
theorem c4_counterexample :
    xorshiftNext (xorshiftInit 1) ≠ canonicalXorshift32 (xorshiftInit 1) := by
  decide

/-- Claim C4, amended: `next()` advances the 32-bit state by the three-stage
XOR-shift with shift amounts left 13, right 17, left 15 (not 5), XOR-ing each
shifted value back into the state in that order; for every 32-bit seed the
output sequence equals that of the word-level 13/17/15 xorshift32. -/
theorem c4_theorem (seed k : Nat) (h : seed < 2 ^ 32) :
    xorshiftSeq seed k = xorshiftWordSeq seed k := by
  unfold xorshiftSeq xorshiftWordSeq
  rw [← xorshiftNext_toNat, xorshiftNext_iterate_toNat, BitVec.toNat_ofNat,
    Nat.mod_eq_of_lt (xorshiftInit_lt seed h)]

/-- Witness for C4's amended theorem at seed 1, output index 0. -/
theorem c4_witness : 1 < 2 ^ 32 ∧ xorshiftSeq 1 0 = xorshiftWordSeq 1 0 :=
  ⟨by decide, c4_theorem 1 0 (by decide)⟩

theorem spawnValue_eq (r : Nat) : spawnValue r = if r < 4 then 2 else 1 := by
  unfold spawnValue
  rcases Nat.lt_or_ge r 4 with h | h
  · rw [if_pos (by omega : r / 4 = 0), if_pos h]
  · rw [if_neg (by omega : ¬r / 4 = 0), if_neg (by omega : ¬r < 4)]

theorem spawnValue_filter_eq :
    (Finset.range (2 ^ 32)).filter (fun r => spawnValue r = 2) = Finset.range 4 := by
  ext r
  simp only [Finset.mem_filter, Finset.mem_range, spawnValue_eq]
  constructor
  · rintro ⟨-, h⟩
    by_contra hr
    simp [hr] at h
  · intro h
    refine ⟨by omega, by simp [h]⟩

/-- Claim C3, counterexample: over uniformly distributed 32-bit generator
outputs, the number of outputs taking the tile-4 branch is not a quarter of
them (it is 4 out of `2 ^ 32`). -/
theorem c3_counterexample :
    ((Finset.range (2 ^ 32)).filter (fun r => spawnValue r = 2)).card ≠ 2 ^ 32 / 4 := by
  rw [spawnValue_filter_eq]
  simp

/-- Claim C3, amended: the spawned cell receives exponent 2 (tile 4) exactly
when the generator output used for value selection divided by 4 equals 0,
i.e. when that output is below 4 — which happens for 4 of the `2 ^ 32`
possible outputs (probability `2 ^ -30`) — and exponent 1 (tile 2) otherwise. -/
theorem c3_theorem :
    (∀ r : Nat, spawnValue r = if r / 4 = 0 then 2 else 1) ∧
    (∀ r : Nat, r / 4 = 0 ↔ r < 4) ∧
    ((Finset.range (2 ^ 32)).filter (fun r => spawnValue r = 2)).card = 4 := by
  refine ⟨fun r => ?_, fun r => by omega, ?_⟩
  · rw [spawnValue_eq]
    rcases Nat.lt_or_ge r 4 with h | h
    · rw [if_pos h, if_pos (by omega : r / 4 = 0)]
    · rw [if_neg (by omega : ¬r < 4), if_neg (by omega : ¬r / 4 = 0)]
  · rw [spawnValue_filter_eq]
    rfl

/-! ## Spawning: claim C10, and the reset/game-over claims C2, C9, C7 -/

theorem spawnValue_ne_zero (r : Nat) : spawnValue r ≠ 0 := by
  unfold spawnValue
  split <;> omega

theorem spawnAux_spec (g : List Nat) (loc p : Nat) (h : loc < countZeros g) :
    ∃ k, k < g.length ∧ g.getD k 0 = 0 ∧
      spawnAux g loc p = some (g.set k (spawnValue (xorshiftNext p)), xorshiftNext p) := by
  induction g generalizing loc with
  | nil => simp [countZeros] at h
  | cons x xs ih =>
    by_cases hx : x = 0
    · by_cases hl : loc = 0
      · refine ⟨0, by simp, hx, ?_⟩
        simp [spawnAux, hl, hx]
      · have h' : loc - 1 < countZeros xs := by
          simp [countZeros, hx] at h
          omega
        obtain ⟨k, hk, hk0, hrec⟩ := ih (loc - 1) h'
        refine ⟨k + 1, by simpa using hk, by simpa using hk0, ?_⟩
        simp [spawnAux, hl, hx, hrec]
    · have h' : loc < countZeros xs := by
        simpa [countZeros, hx] using h
      obtain ⟨k, hk, hk0, hrec⟩ := ih loc h'
      refine ⟨k + 1, by simpa using hk, by simpa using hk0, ?_⟩
      simp [spawnAux, hx, hrec]

theorem spawnNewNumber_spec (s : GridState) (h0 : 0 < s.empty)
    (hle : s.empty ≤ countZeros s.grid) :
    ∃ k, k < s.grid.length ∧ s.grid.getD k 0 = 0 ∧
      spawnNewNumber s = some
        { s with grid := s.grid.set k (spawnValue (xorshiftNext (xorshiftNext s.prng))),
                 prng := xorshiftNext (xorshiftNext s.prng),
                 empty := s.empty - 1 } := by
  have hloc : xorshiftNext s.prng % s.empty < countZeros s.grid :=
    lt_of_lt_of_le (Nat.mod_lt _ h0) hle
  obtain ⟨k, hk, hk0, hrec⟩ := spawnAux_spec s.grid (xorshiftNext s.prng % s.empty)
    (xorshiftNext s.prng) hloc
  exact ⟨k, hk, hk0, by simp [spawnNewNumber, hrec]⟩

/-- Claim C10: if `empty_count` is positive and bounded by the number of zero
cells, `spawn_new_number` finds the selected empty cell and returns — the
unreachable marker (the `none` branch) is not taken — and it sets exactly one
formerly-zero cell to a non-zero exponent, decrementing `empty_count`. -/
theorem c10_theorem (s : GridState) (h0 : 0 < s.empty)
    (hc : s.empty = countZeros s.grid) :
    ∃ s' k, spawnNewNumber s = some s' ∧ k < s.grid.length ∧
      s.grid.getD k 0 = 0 ∧
      s'.grid = s.grid.set k (spawnValue (xorshiftNext (xorshiftNext s.prng))) ∧
      s'.grid.getD k 0 ≠ 0 ∧
      (∀ q, q ≠ k → s'.grid.getD q 0 = s.grid.getD q 0) ∧
      s'.empty = s.empty - 1 ∧
      countZeros s'.grid + 1 = countZeros s.grid := by
  obtain ⟨k, hk, hk0, hs⟩ := spawnNewNumber_spec s h0 (le_of_eq hc)
  refine ⟨_, k, hs, hk, hk0, rfl, ?_, ?_, rfl, ?_⟩
  · rw [getD_set_self _ _ _ hk]
    exact spawnValue_ne_zero _
  · intro q hq
    exact getD_set_other _ _ _ _ hq
  · exact countZeros_set_spawn _ _ _ hk hk0 (spawnValue_ne_zero _)

/-- Witness for C10 on a concrete all-empty 2×2 board. -/
theorem c10_witness :
    0 < (GridState.mk 1 4 0 GState.running [0, 0, 0, 0]).empty ∧
    (GridState.mk 1 4 0 GState.running [0, 0, 0, 0]).empty =
      countZeros (GridState.mk 1 4 0 GState.running [0, 0, 0, 0]).grid ∧
    ∃ s' k, spawnNewNumber (GridState.mk 1 4 0 GState.running [0, 0, 0, 0]) = some s' ∧
      k < (GridState.mk 1 4 0 GState.running [0, 0, 0, 0]).grid.length ∧
      (GridState.mk 1 4 0 GState.running [0, 0, 0, 0]).grid.getD k 0 = 0 ∧
      s'.grid = (GridState.mk 1 4 0 GState.running [0, 0, 0, 0]).grid.set k
        (spawnValue (xorshiftNext (xorshiftNext (GridState.mk 1 4 0 GState.running [0, 0, 0, 0]).prng))) ∧
      s'.grid.getD k 0 ≠ 0 ∧
      (∀ q, q ≠ k → s'.grid.getD q 0 =
        (GridState.mk 1 4 0 GState.running [0, 0, 0, 0]).grid.getD q 0) ∧
      s'.empty = (GridState.mk 1 4 0 GState.running [0, 0, 0, 0]).empty - 1 ∧
      countZeros s'.grid + 1 =
        countZeros (GridState.mk 1 4 0 GState.running [0, 0, 0, 0]).grid :=
  ⟨by decide, by decide, c10_theorem _ (by decide) (by decide)⟩

/-- Claim C9: `reset()` never writes the `state_` or `score_` fields; in
particular an `Ended` engine is still `Ended` after `reset()`. -/
theorem c9_theorem (n : Nat) (s s' : GridState) (h : reset n s = some s') :
    s'.state = s.state ∧ s'.score = s.score ∧
    (s.state = GState.ended → s'.state = GState.ended) := by
  unfold reset spawnNewNumber at h
  dsimp only at h
  rcases hm : spawnAux (List.replicate (n * n) 0)
      (xorshiftNext s.prng % (n * n)) (xorshiftNext s.prng) with - | r
  · rw [hm] at h
    simp at h
  · rw [hm] at h
    simp only [Option.some.injEq] at h
    subst h
    exact ⟨rfl, rfl, fun hs => hs⟩

/-- Witness for C9 on a concrete ended 2×2 engine. -/
theorem c9_witness :
    (GridState.mk 1157628417 3 5 GState.ended [0, 1, 0, 0]).state =
      (GridState.mk 1 0 5 GState.ended [1, 1, 1, 1]).state ∧
    (GridState.mk 1157628417 3 5 GState.ended [0, 1, 0, 0]).score =
      (GridState.mk 1 0 5 GState.ended [1, 1, 1, 1]).score ∧
    ((GridState.mk 1 0 5 GState.ended [1, 1, 1, 1]).state = GState.ended →
      (GridState.mk 1157628417 3 5 GState.ended [0, 1, 0, 0]).state = GState.ended) :=
  c9_theorem 2 _ _ (by decide)

/-- Claim C2, counterexample: after `reset()` of an ended engine, `state()`
still returns `Ended`, not `Running` as the claim asserts. -/
theorem c2_counterexample :
    (reset 2 (GridState.mk 1 0 5 GState.ended [1, 1, 1, 1])).map GridState.state =
      some GState.ended ∧ GState.ended ≠ GState.running := by
  constructor
  · decide
  · decide

/-- Claim C2, amended: after `reset()`, exactly one cell of the board is
non-zero, `empty_count` equals `size² - 1`, and the score is unchanged; but
the status field is not written, so `state()` returns whatever it returned
before the reset (in particular `Ended` stays `Ended`). -/
theorem c2_theorem (n : Nat) (s : GridState) (hn : 0 < n) :
    ∃ s', reset n s = some s' ∧ s'.grid.length = n * n ∧
      countZeros s'.grid + 1 = n * n ∧ s'.empty = n * n - 1 ∧
      s'.score = s.score ∧ s'.state = s.state := by
  have hnn : 0 < n * n := Nat.mul_pos hn hn
  obtain ⟨k, hk, hk0, hs⟩ := spawnNewNumber_spec
    { s with grid := List.replicate (n * n) 0, empty := n * n }
    (by simpa using hnn) (by simp [countZeros_replicate])
  refine ⟨_, hs, ?_, ?_, rfl, rfl, rfl⟩
  · simp
  · have hcz := countZeros_set_spawn (List.replicate (n * n) 0) k
      (spawnValue (xorshiftNext (xorshiftNext s.prng)))
      (by simpa using hk) (getD_replicate _ _) (spawnValue_ne_zero _)
    dsimp only
    rw [hcz, countZeros_replicate]

/-- Witness for C2's amended theorem on a concrete ended 2×2 engine. -/
theorem c2_witness :
    0 < 2 ∧ ∃ s', reset 2 (GridState.mk 1 0 5 GState.ended [1, 1, 1, 1]) = some s' ∧
      s'.grid.length = 2 * 2 ∧ countZeros s'.grid + 1 = 2 * 2 ∧
      s'.empty = 2 * 2 - 1 ∧
      s'.score = (GridState.mk 1 0 5 GState.ended [1, 1, 1, 1]).score ∧
      s'.state = (GridState.mk 1 0 5 GState.ended [1, 1, 1, 1]).state :=
  ⟨by decide, c2_theorem 2 _ (by decide)⟩

theorem move_of_full (n : Nat) (s : GridState) (d : Dir) (h : s.empty = 0) :
    move n s d = some { s with state := GState.ended } := by
  unfold move
  rw [if_pos h]

theorem state_update_eta (s : GridState) (h : s.state = GState.ended) :
    { s with state := GState.ended } = s := by
  cases s
  simp_all

theorem movesFold_of_ended (n : Nat) (s : GridState) (ds : List Dir)
    (h : s.empty = 0) (hs : s.state = GState.ended) : movesFold n s ds = some s := by
  induction ds with
  | nil => rfl
  | cons d ds ih =>
    unfold movesFold
    rw [move_of_full n s d h, state_update_eta s hs]
    exact ih

/-- Claim C7: from any state with `empty_count = 0`, the next `move()` call in
any direction sets `state()` to `Ended` and changes nothing else, and every
subsequent sequence of `move()` calls leaves board, score and `empty_count`
(and the `Ended` status) unchanged. -/
theorem c7_theorem (n : Nat) (s : GridState) (d : Dir) (ds : List Dir)
    (h : s.empty = 0) :
    move n s d = some { s with state := GState.ended } ∧
    ∃ sf, movesFold n s (d :: ds) = some sf ∧ sf.state = GState.ended ∧
      sf.grid = s.grid ∧ sf.score = s.score ∧ sf.empty = 0 ∧
      sf.prng = s.prng := by
  refine ⟨move_of_full n s d h, { s with state := GState.ended }, ?_, rfl, rfl, rfl, h, rfl⟩
  unfold movesFold
  rw [move_of_full n s d h]
  exact movesFold_of_ended n _ ds h rfl

/-- Witness for C7 on a concrete full 1×1 board with two queued moves. -/
theorem c7_witness :
    move 1 (GridState.mk 1 0 7 GState.running [3]) Dir.up =
      some { GridState.mk 1 0 7 GState.running [3] with state := GState.ended } ∧
    ∃ sf, movesFold 1 (GridState.mk 1 0 7 GState.running [3]) [Dir.up, Dir.down] = some sf ∧
      sf.state = GState.ended ∧ sf.grid = [3] ∧ sf.score = 7 ∧ sf.empty = 0 ∧
      sf.prng = 1 :=
  c7_theorem 1 _ Dir.up [Dir.down] rfl

/-! ## Properties of the incremental merge -/

theorem mstep_none (m : MState) (v : Nat) (h : m.pend = none) :
    mstep m v = ⟨m.acc, some v, m.cnt, m.scr⟩ := by
  simp [mstep, h]

theorem mstep_some_eq (m : MState) (v p : Nat) (h : m.pend = some p) (hv : v = p) :
    mstep m v = ⟨m.acc ++ [p + 1], none, m.cnt + 1, m.scr + 2 ^ p⟩ := by
  simp [mstep, h, hv]

theorem mstep_some_ne (m : MState) (v p : Nat) (h : m.pend = some p) (hv : ¬v = p) :
    mstep m v = ⟨m.acc ++ [p], some v, m.cnt, m.scr⟩ := by
  simp [mstep, h, hv]

theorem mstep_foldl_shift (c : List Nat) (a : List Nat) (pd : Option Nat) (k s : Nat) :
    c.foldl mstep ⟨a, pd, k, s⟩ =
      ⟨a ++ (c.foldl mstep ⟨[], pd, 0, 0⟩).acc, (c.foldl mstep ⟨[], pd, 0, 0⟩).pend,
       k + (c.foldl mstep ⟨[], pd, 0, 0⟩).cnt, s + (c.foldl mstep ⟨[], pd, 0, 0⟩).scr⟩ := by
  induction c generalizing a pd k s with
  | nil => simp
  | cons v c ih =>
    simp only [List.foldl_cons]
    cases pd with
    | none =>
      rw [mstep_none ⟨a, none, k, s⟩ v rfl, mstep_none ⟨[], none, 0, 0⟩ v rfl]
      dsimp only
      rw [ih a (some v) k s]
    | some p =>
      by_cases hv : v = p
      · rw [mstep_some_eq ⟨a, some p, k, s⟩ v p rfl hv,
          mstep_some_eq ⟨[], some p, 0, 0⟩ v p rfl hv]
        dsimp only
        rw [ih (a ++ [p + 1]) none (k + 1) (s + 2 ^ p),
          ih ([] ++ [p + 1]) none (0 + 1) (0 + 2 ^ p)]
        simp only [MState.mk.injEq]
        refine ⟨by simp, by simp, by omega, by omega⟩
      · rw [mstep_some_ne ⟨a, some p, k, s⟩ v p rfl hv,
          mstep_some_ne ⟨[], some p, 0, 0⟩ v p rfl hv]
        dsimp only
        rw [ih (a ++ [p]) (some v) k s, ih ([] ++ [p]) (some v) 0 0]
        simp only [MState.mk.injEq]
        refine ⟨by simp, by simp, by omega, by omega⟩

theorem mrunP_spec : ∀ N c p, c.length ≤ N →
    ((c.foldl mstep ⟨[], some p, 0, 0⟩).acc ++
        (c.foldl mstep ⟨[], some p, 0, 0⟩).pend.toList = mergePairs (p :: c)) ∧
    (c.foldl mstep ⟨[], some p, 0, 0⟩).cnt = mergeCount (p :: c) ∧
    (c.foldl mstep ⟨[], some p, 0, 0⟩).scr = mergeScore (p :: c) := by
  intro N
  induction N with
  | zero =>
    intro c p hc
    cases c with
    | nil => simp [mergePairs, mergeCount, mergeScore]
    | cons v c => simp at hc
  | succ N ih =>
    intro c p hc
    cases c with
    | nil => simp [mergePairs, mergeCount, mergeScore]
    | cons v c =>
      simp only [List.foldl_cons]
      by_cases hv : v = p
      · subst hv
        rw [mstep_some_eq ⟨[], some v, 0, 0⟩ v v rfl rfl]
        dsimp only
        rw [mstep_foldl_shift c ([] ++ [v + 1]) none (0 + 1) (0 + 2 ^ v)]
        cases c with
        | nil => simp [mergePairs, mergeCount, mergeScore]
        | cons w c' =>
          have hc' : c'.length ≤ N := by simp at hc; omega
          obtain ⟨h1, h2, h3⟩ := ih c' w hc'
          have hw : (w :: c').foldl mstep ⟨[], none, 0, 0⟩ =
              c'.foldl mstep ⟨[], some w, 0, 0⟩ := by
            simp only [List.foldl_cons]
            rw [mstep_none ⟨[], none, 0, 0⟩ w rfl]
          rw [hw]
          dsimp only
          refine ⟨?_, ?_, ?_⟩
          · simp only [List.nil_append, List.append_assoc, h1]
            simp [mergePairs]
          · simp only [h2]
            simp [mergeCount]
          · simp only [h3]
            simp [mergeScore]
      · rw [mstep_some_ne ⟨[], some p, 0, 0⟩ v p rfl hv]
        dsimp only
        rw [mstep_foldl_shift c ([] ++ [p]) (some v) 0 0]
        have hcl : c.length ≤ N := by simp at hc; omega
        obtain ⟨h1, h2, h3⟩ := ih c v hcl
        have hpv : ¬p = v := fun h => hv h.symm
        refine ⟨?_, ?_, ?_⟩
        · simp only [List.nil_append, List.append_assoc, h1]
          simp [mergePairs, hpv]
        · simp only [Nat.zero_add, h2]
          simp [mergeCount, hpv]
        · simp only [Nat.zero_add, h3]
          simp [mergeScore, hpv]

theorem mrun_spec (c : List Nat) :
    ((mrun c).acc ++ (mrun c).pend.toList = mergePairs c) ∧
    (mrun c).cnt = mergeCount c ∧ (mrun c).scr = mergeScore c := by
  cases c with
  | nil => simp [mrun, mergePairs, mergeCount, mergeScore]
  | cons v c =>
    have hv : mrun (v :: c) = c.foldl mstep ⟨[], some v, 0, 0⟩ := by
      unfold mrun
      simp only [List.foldl_cons]
      rw [mstep_none ⟨[], none, 0, 0⟩ v rfl]
    rw [hv]
    exact mrunP_spec c.length c v le_rfl

theorem foldl_pend_mem : ∀ (c : List Nat) (m : MState) (p : Nat),
    (c.foldl mstep m).pend = some p → m.pend = some p ∨ p ∈ c := by
  intro c
  induction c with
  | nil => exact fun m p h => Or.inl h
  | cons v c ih =>
    intro m p h
    rcases ih (mstep m v) p h with h' | h'
    · rcases hm : m.pend with - | q
      · rw [mstep_none m v hm] at h'
        simp only at h'
        have hvp : v = p := Option.some.inj h'
        exact Or.inr (List.mem_cons.mpr (Or.inl hvp.symm))
      · by_cases hq : v = q
        · rw [mstep_some_eq m v q hm hq] at h'
          simp at h'
        · rw [mstep_some_ne m v q hm hq] at h'
          simp only at h'
          have hvp : v = p := Option.some.inj h'
          exact Or.inr (List.mem_cons.mpr (Or.inl hvp.symm))
    · exact Or.inr (List.mem_cons_of_mem _ h')

theorem mrun_pend_mem (c : List Nat) (p : Nat) (h : (mrun c).pend = some p) : p ∈ c := by
  rcases foldl_pend_mem c ⟨[], none, 0, 0⟩ p h with h' | h'
  · simp at h'
  · exact h'

theorem mergePairs_length : ∀ N c, List.length c ≤ N →
    (mergePairs c).length + mergeCount c = c.length := by
  intro N
  induction N with
  | zero =>
    intro c hc
    cases c with
    | nil => simp [mergePairs, mergeCount]
    | cons a t => simp at hc
  | succ N ih =>
    intro c hc
    match c with
    | [] => simp [mergePairs, mergeCount]
    | [a] => simp [mergePairs, mergeCount]
    | a :: b :: t =>
      by_cases hab : a = b
      · have := ih t (by simp at hc; omega)
        simp only [mergePairs, mergeCount, if_pos hab, List.length_cons]
        simp at this ⊢
        omega
      · have := ih (b :: t) (by simp at hc ⊢; omega)
        simp only [mergePairs, mergeCount, if_neg hab, List.length_cons]
        simp at this ⊢
        omega

theorem mergeCount_zero : ∀ N c, List.length c ≤ N → mergeCount c = 0 →
    mergePairs c = c ∧ mergeScore c = 0 := by
  intro N
  induction N with
  | zero =>
    intro c hc h0
    cases c with
    | nil => simp [mergePairs, mergeScore]
    | cons a t => simp at hc
  | succ N ih =>
    intro c hc h0
    match c with
    | [] => simp [mergePairs, mergeScore]
    | [a] => simp [mergePairs, mergeScore]
    | a :: b :: t =>
      by_cases hab : a = b
      · rw [mergeCount, if_pos hab] at h0
        omega
      · rw [mergeCount, if_neg hab] at h0
        obtain ⟨h1, h2⟩ := ih (b :: t) (by simp at hc ⊢; omega) h0
        rw [mergePairs, if_neg hab, mergeScore, if_neg hab]
        exact ⟨by rw [h1], h2⟩

theorem mergeScore_zero_of_count (c : List Nat) (h : mergeCount c = 0) :
    mergeScore c = 0 :=
  (mergeCount_zero c.length c le_rfl h).2

theorem mergePairs_eq_self_of_count (c : List Nat) (h : mergeCount c = 0) :
    mergePairs c = c :=
  (mergeCount_zero c.length c le_rfl h).1

theorem mergePairs_ne_zero : ∀ N c, List.length c ≤ N → (∀ v ∈ c, v ≠ 0) →
    ∀ v ∈ mergePairs c, v ≠ 0 := by
  intro N
  induction N with
  | zero =>
    intro c hc h
    cases c with
    | nil => simp [mergePairs]
    | cons a t => simp at hc
  | succ N ih =>
    intro c hc h
    match c with
    | [] => simp [mergePairs]
    | [a] => simpa [mergePairs] using h
    | a :: b :: t =>
      by_cases hab : a = b
      · rw [mergePairs, if_pos hab]
        intro v hv
        rcases List.mem_cons.mp hv with hv | hv
        · omega
        · exact ih t (by simp at hc; omega) (fun w hw => h w (by simp [hw])) v hv
      · rw [mergePairs, if_neg hab]
        intro v hv
        rcases List.mem_cons.mp hv with hv | hv
        · exact hv ▸ h a (by simp)
        · exact ih (b :: t) (by simp at hc ⊢; omega)
            (fun w hw => h w (by simp at hw ⊢; tauto)) v hv

theorem compact_ne_zero (l : List Nat) : ∀ v ∈ compact l, v ≠ 0 := by
  intro v hv
  have := List.mem_filter.mp hv
  simpa using this.2

theorem countZeros_eq_zero (l : List Nat) (h : ∀ v ∈ l, v ≠ 0) : countZeros l = 0 := by
  induction l with
  | nil => rfl
  | cons x t ih =>
    have hx := h x (by simp)
    simp [countZeros, hx, ih (fun v hv => h v (by simp [hv]))]

theorem compact_length_le (l : List Nat) : (compact l).length ≤ l.length :=
  List.length_filter_le _ l

theorem slideSpec_length (n : Nat) (l : List Nat) (h : l.length = n) :
    (slideSpec n l).length = n := by
  unfold slideSpec
  have h1 := mergePairs_length (compact l).length (compact l) le_rfl
  have h2 := compact_length_le l
  simp only [List.length_append, List.length_replicate]
  omega

theorem countZeros_slideSpec (n : Nat) (l : List Nat) (h : l.length = n) :
    countZeros (slideSpec n l) = countZeros l + mergeCount (compact l) := by
  unfold slideSpec
  rw [countZeros_append, countZeros_replicate,
    countZeros_eq_zero _ (mergePairs_ne_zero (compact l).length (compact l) le_rfl
      (compact_ne_zero l))]
  have h1 := mergePairs_length (compact l).length (compact l) le_rfl
  have h2 := compact_length_le l
  have h3 := countZeros_compact_length l
  omega

/-! ## Branch lemmas for the line-local loop body -/

theorem lineStep_skip (st : LS) (j : Nat) (h : st.l.getD j 0 = 0) :
    lineStep st j = st := by
  simp only [lineStep]
  rw [if_pos h]

theorem lineStep_slide (st : LS) (j : Nat) (h : st.l.getD j 0 ≠ 0)
    (ht : st.l.getD st.top 0 = 0) :
    lineStep st j = { st with l := listSwap st.l j st.top, modified := true } := by
  simp only [lineStep]
  rw [if_neg h, if_pos ht]

theorem lineStep_merge (st : LS) (j : Nat) (h : st.l.getD j 0 ≠ 0)
    (ht : st.l.getD st.top 0 ≠ 0) (he : st.l.getD j 0 = st.l.getD st.top 0) :
    lineStep st j =
      ⟨(st.l.set j 0).set st.top ((st.l.getD st.top 0 + 1) % 256), st.top + 1,
       st.empty + 1, (st.score + 2 ^ st.l.getD st.top 0) % 2 ^ 32, true⟩ := by
  simp only [lineStep]
  rw [if_neg h, if_neg ht, if_pos he]

theorem lineStep_advance (st : LS) (j : Nat) (h : st.l.getD j 0 ≠ 0)
    (ht : st.l.getD st.top 0 ≠ 0) (hne : st.l.getD j 0 ≠ st.l.getD st.top 0)
    (hj : st.top + 1 = j) :
    lineStep st j = { st with top := st.top + 1 } := by
  simp only [lineStep]
  rw [if_neg h, if_neg ht, if_neg hne, if_pos hj]

theorem lineStep_close (st : LS) (j : Nat) (h : st.l.getD j 0 ≠ 0)
    (ht : st.l.getD st.top 0 ≠ 0) (hne : st.l.getD j 0 ≠ st.l.getD st.top 0)
    (hj : st.top + 1 ≠ j) :
    lineStep st j =
      { st with l := listSwap st.l j (st.top + 1), top := st.top + 1,
                modified := true } := by
  simp only [lineStep]
  rw [if_neg h, if_neg ht, if_neg hne, if_neg hj]

theorem listSwap_zero_target (g : List Nat) (a b : Nat) (hb : g.getD b 0 = 0) :
    listSwap g a b = (g.set a 0).set b (g.getD a 0) := by
  rw [listSwap, hb]

/-! ## Anchored-change invariant: a mutated line never returns to its
original contents -/

theorem AInv_step (l0 : List Nat) (hb : ∀ v ∈ l0, v ≤ 254) (j : Nat) (st : LS)
    (hj : j < l0.length) (h : AInv l0 j st) : AInv l0 (j + 1) (lineStep st j) := by
  obtain ⟨hlen, hsuf, htop, hfalse, htrue⟩ := h
  have hjl : j < st.l.length := by omega
  have htl : st.top < st.l.length := by omega
  by_cases hvj : st.l.getD j 0 = 0
  · rw [lineStep_skip st j hvj]
    refine ⟨hlen, fun k hk => hsuf k (by omega), by omega, ?_, htrue⟩
    intro hm
    obtain ⟨he, hgap⟩ := hfalse hm
    refine ⟨he, fun k hk1 hk2 => ?_⟩
    rcases Nat.lt_or_ge k j with h' | h'
    · exact hgap k hk1 h'
    · have hkj : k = j := by omega
      rw [hkj]
      exact hvj
  · by_cases hvt : st.l.getD st.top 0 = 0
    · -- slide into the empty cursor cell
      rw [lineStep_slide st j hvj hvt]
      have hsw : listSwap st.l j st.top = (st.l.set j 0).set st.top (st.l.getD j 0) := by
        rw [listSwap, hvt]
      have hlen2 : ((st.l.set j 0).set st.top (st.l.getD j 0)).length = st.l.length := by
        simp
      have hgother : ∀ q, q ≠ st.top → q ≠ j →
          ((st.l.set j 0).set st.top (st.l.getD j 0)).getD q 0 = st.l.getD q 0 := by
        intro q h1 h2
        rw [getD_set_other _ _ _ _ h1, getD_set_other _ _ _ _ h2]
      have hgtop : ((st.l.set j 0).set st.top (st.l.getD j 0)).getD st.top 0 =
          st.l.getD j 0 := by
        rw [getD_set_self]
        simpa using htl
      refine ⟨by simpa [hsw] using hlen, ?_, by dsimp only; omega, by simp, ?_⟩
      · intro k hk
        dsimp only
        rw [hsw]
        rw [hgother k (by omega) (by omega)]
        exact hsuf k (by omega)
      · rintro -
        dsimp only
        rw [hsw]
        cases hsm : st.modified with
        | false =>
          obtain ⟨he, -⟩ := hfalse hsm
          refine ⟨st.top, Or.inr ⟨rfl, ?_, ?_, ?_⟩⟩
          · rw [hgtop]; exact hvj
          · rw [hgtop]
            have : st.l.getD j 0 ∈ l0 := he ▸ getD_mem _ j hjl
            exact hb _ this
          · rw [← he]
            exact hvt
        | true =>
          obtain ⟨p, hp⟩ := htrue hsm
          rcases hp with ⟨hp1, hp2⟩ | ⟨hp1, hp2, -⟩
          · refine ⟨p, Or.inl ⟨hp1, ?_⟩⟩
            rw [hgother p (by omega) (by omega)]
            exact hp2
          · rw [hp1] at hp2
            exact absurd hvt hp2
    · by_cases hve : st.l.getD j 0 = st.l.getD st.top 0
      · -- merge
        rw [lineStep_merge st j hvj hvt hve]
        have hgother : ∀ q, q ≠ st.top → q ≠ j →
            ((st.l.set j 0).set st.top ((st.l.getD st.top 0 + 1) % 256)).getD q 0 =
              st.l.getD q 0 := by
          intro q h1 h2
          rw [getD_set_other _ _ _ _ h1, getD_set_other _ _ _ _ h2]
        have hgtop : ((st.l.set j 0).set st.top
            ((st.l.getD st.top 0 + 1) % 256)).getD st.top 0 =
            (st.l.getD st.top 0 + 1) % 256 := by
          rw [getD_set_self]
          simpa using htl
        refine ⟨by simpa using hlen, ?_, by dsimp only; omega, by simp, ?_⟩
        · intro k hk
          dsimp only
          rw [hgother k (by omega) (by omega)]
          exact hsuf k (by omega)
        · rintro -
          dsimp only
          cases hsm : st.modified with
          | false =>
            obtain ⟨he, -⟩ := hfalse hsm
            have hvb : st.l.getD st.top 0 ≤ 254 := by
              have : st.l.getD st.top 0 ∈ l0 := he ▸ getD_mem _ st.top htl
              exact hb _ this
            refine ⟨st.top, Or.inl ⟨by omega, ?_⟩⟩
            rw [hgtop, Nat.mod_eq_of_lt (by omega), ← he]
            omega
          | true =>
            obtain ⟨p, hp⟩ := htrue hsm
            rcases hp with ⟨hp1, hp2⟩ | ⟨hp1, hp2, hp3, hp4⟩
            · refine ⟨p, Or.inl ⟨by omega, ?_⟩⟩
              rw [hgother p (by omega) (by omega)]
              exact hp2
            · rw [hp1] at hp3 hp4
              refine ⟨p, Or.inl ⟨by omega, ?_⟩⟩
              rw [hp1, hgtop, hp4, Nat.mod_eq_of_lt (by omega)]
              omega
      · by_cases hadv : st.top + 1 = j
        · -- cursor advance, no gap to close
          rw [lineStep_advance st j hvj hvt hve hadv]
          refine ⟨hlen, fun k hk => hsuf k (by omega), by dsimp only; omega, ?_, ?_⟩
          · intro hm
            obtain ⟨he, -⟩ := hfalse hm
            refine ⟨he, fun k hk1 hk2 => ?_⟩
            dsimp only at hk1 hk2 ⊢
            omega
          · intro hm
            obtain ⟨p, hp⟩ := htrue hm
            rcases hp with ⟨hp1, hp2⟩ | ⟨hp1, hp2, -, hp4⟩
            · refine ⟨p, Or.inl ⟨?_, ?_⟩⟩
              · dsimp only
                omega
              · exact hp2
            · refine ⟨p, Or.inl ⟨?_, ?_⟩⟩
              · dsimp only
                omega
              · dsimp only
                rw [hp4]
                exact hp2
        · -- close the gap: swap into the cell after the cursor
          have hlt : st.top + 1 < j := by omega
          rw [lineStep_close st j hvj hvt hve hadv]
          have hg1 : st.top + 1 < st.l.length := by omega
          have hsw : listSwap st.l j (st.top + 1) =
              (st.l.set j (st.l.getD (st.top + 1) 0)).set (st.top + 1)
                (st.l.getD j 0) := rfl
          have hgother : ∀ q, q ≠ st.top + 1 → q ≠ j →
              (listSwap st.l j (st.top + 1)).getD q 0 = st.l.getD q 0 := by
            intro q h1 h2
            rw [hsw, getD_set_other _ _ _ _ h1, getD_set_other _ _ _ _ h2]
          have hgtop : (listSwap st.l j (st.top + 1)).getD (st.top + 1) 0 =
              st.l.getD j 0 := by
            rw [hsw, getD_set_self]
            simpa using hg1
          refine ⟨by simp [hsw, hlen], ?_, by dsimp only; omega, by simp, ?_⟩
          · intro k hk
            dsimp only
            rw [hgother k (by omega) (by omega)]
            exact hsuf k (by omega)
          · rintro -
            dsimp only
            cases hsm : st.modified with
            | false =>
              obtain ⟨he, hgap⟩ := hfalse hsm
              have hz : st.l.getD (st.top + 1) 0 = 0 := hgap _ (by omega) hlt
              refine ⟨st.top + 1, Or.inr ⟨rfl, ?_, ?_, ?_⟩⟩
              · rw [hgtop]; exact hvj
              · rw [hgtop]
                have : st.l.getD j 0 ∈ l0 := he ▸ getD_mem _ j hjl
                exact hb _ this
              · rw [← he]
                exact hz
            | true =>
              obtain ⟨p, hp⟩ := htrue hsm
              rcases hp with ⟨hp1, hp2⟩ | ⟨hp1, hp2, -, hp4⟩
              · refine ⟨p, Or.inl ⟨by omega, ?_⟩⟩
                rw [hgother p (by omega) (by omega)]
                exact hp2
              · refine ⟨p, Or.inl ⟨by omega, ?_⟩⟩
                rw [hgother p (by omega) (by omega), hp4]
                exact hp2

theorem AInv_loop (l0 : List Nat) (hb : ∀ v ∈ l0, v ≤ 254) :
    ∀ k j st, j + k ≤ l0.length → AInv l0 j st →
      AInv l0 (j + k) (lineLoop k j st) := by
  intro k
  induction k with
  | zero =>
    intro j st h hi
    simpa using hi
  | succ k ih =>
    intro j st h hi
    have hj : j < l0.length := by omega
    have h1 := AInv_step l0 hb j st hj hi
    have h2 := ih (j + 1) (lineStep st j) (by omega) h1
    rw [show lineLoop (k + 1) j st = lineLoop k (j + 1) (lineStep st j) from rfl,
      show j + (k + 1) = (j + 1) + k by omega]
    exact h2

theorem lineLoop_modified_ne (l0 : List Nat) (hb : ∀ v ∈ l0, v ≤ 254)
    (e0 sc0 : Nat) (hlen : 1 ≤ l0.length)
    (hm : (lineLoop (l0.length - 1) 1 ⟨l0, 0, e0, sc0, false⟩).modified = true) :
    (lineLoop (l0.length - 1) 1 ⟨l0, 0, e0, sc0, false⟩).l ≠ l0 := by
  have hinit : AInv l0 1 ⟨l0, 0, e0, sc0, false⟩ := by
    refine ⟨rfl, fun k hk => rfl, by dsimp only; omega,
      fun hm2 => ⟨rfl, fun k h1 h2 => by dsimp only at h1 h2; omega⟩,
      fun hm2 => by simp at hm2⟩
  have h := AInv_loop l0 hb (l0.length - 1) 1 _ (by omega) hinit
  obtain ⟨hl, hsuf, htop, hfalse, htrue⟩ := h
  obtain ⟨p, hp⟩ := htrue hm
  intro hceq
  rcases hp with ⟨-, hp2⟩ | ⟨-, hp2, -, hp4⟩
  · rw [hceq] at hp2
    exact hp2 rfl
  · rw [hceq, hp4] at hp2
    exact hp2 rfl

theorem lineStep_not_modified (st : LS) (j : Nat)
    (h : (lineStep st j).modified = false) :
    (lineStep st j).l = st.l ∧ (lineStep st j).empty = st.empty ∧
    (lineStep st j).score = st.score ∧ st.modified = false := by
  by_cases h1 : st.l.getD j 0 = 0
  · rw [lineStep_skip st j h1] at h ⊢
    exact ⟨rfl, rfl, rfl, h⟩
  · by_cases h2 : st.l.getD st.top 0 = 0
    · rw [lineStep_slide st j h1 h2] at h
      simp at h
    · by_cases h3 : st.l.getD j 0 = st.l.getD st.top 0
      · rw [lineStep_merge st j h1 h2 h3] at h
        simp at h
      · by_cases h4 : st.top + 1 = j
        · rw [lineStep_advance st j h1 h2 h3 h4] at h ⊢
          exact ⟨rfl, rfl, rfl, h⟩
        · rw [lineStep_close st j h1 h2 h3 h4] at h
          simp at h

theorem lineLoop_not_modified : ∀ (k j : Nat) (st : LS),
    (lineLoop k j st).modified = false →
    (lineLoop k j st).l = st.l ∧ (lineLoop k j st).empty = st.empty ∧
    (lineLoop k j st).score = st.score ∧ st.modified = false := by
  intro k
  induction k with
  | zero =>
    intro j st h
    exact ⟨rfl, rfl, rfl, h⟩
  | succ k ih =>
    intro j st h
    have h0 : lineLoop (k + 1) j st = lineLoop k (j + 1) (lineStep st j) := rfl
    rw [h0] at h ⊢
    obtain ⟨hl, he, hs, hm⟩ := ih (j + 1) (lineStep st j) h
    obtain ⟨hl2, he2, hs2, hm2⟩ := lineStep_not_modified st j hm
    exact ⟨by rw [hl, hl2], by rw [he, he2], by rw [hs, hs2], hm2⟩

theorem lineStep_flag (l : List Nat) (top e sc : Nat) (m : Bool) (j : Nat) :
    lineStep ⟨l, top, e, sc, m⟩ j =
      ⟨(lineStep ⟨l, top, e, sc, false⟩ j).l, (lineStep ⟨l, top, e, sc, false⟩ j).top,
       (lineStep ⟨l, top, e, sc, false⟩ j).empty,
       (lineStep ⟨l, top, e, sc, false⟩ j).score,
       m || (lineStep ⟨l, top, e, sc, false⟩ j).modified⟩ := by
  by_cases h1 : l.getD j 0 = 0
  · rw [lineStep_skip ⟨l, top, e, sc, m⟩ j h1, lineStep_skip ⟨l, top, e, sc, false⟩ j h1]
    cases m <;> rfl
  · by_cases h2 : l.getD top 0 = 0
    · rw [lineStep_slide ⟨l, top, e, sc, m⟩ j h1 h2,
        lineStep_slide ⟨l, top, e, sc, false⟩ j h1 h2]
      cases m <;> rfl
    · by_cases h3 : l.getD j 0 = l.getD top 0
      · rw [lineStep_merge ⟨l, top, e, sc, m⟩ j h1 h2 h3,
          lineStep_merge ⟨l, top, e, sc, false⟩ j h1 h2 h3]
        cases m <;> rfl
      · by_cases h4 : top + 1 = j
        · rw [lineStep_advance ⟨l, top, e, sc, m⟩ j h1 h2 h3 h4,
            lineStep_advance ⟨l, top, e, sc, false⟩ j h1 h2 h3 h4]
          cases m <;> rfl
        · rw [lineStep_close ⟨l, top, e, sc, m⟩ j h1 h2 h3 h4,
            lineStep_close ⟨l, top, e, sc, false⟩ j h1 h2 h3 h4]
          cases m <;> rfl

theorem lineLoop_flag : ∀ (k j : Nat) (l : List Nat) (top e sc : Nat) (m : Bool),
    lineLoop k j ⟨l, top, e, sc, m⟩ =
      ⟨(lineLoop k j ⟨l, top, e, sc, false⟩).l, (lineLoop k j ⟨l, top, e, sc, false⟩).top,
       (lineLoop k j ⟨l, top, e, sc, false⟩).empty,
       (lineLoop k j ⟨l, top, e, sc, false⟩).score,
       m || (lineLoop k j ⟨l, top, e, sc, false⟩).modified⟩ := by
  intro k
  induction k with
  | zero =>
    intro j l top e sc m
    simp [lineLoop]
  | succ k ih =>
    intro j l top e sc m
    have h0 : ∀ x : LS, lineLoop (k + 1) j x = lineLoop k (j + 1) (lineStep x j) :=
      fun x => rfl
    rw [h0, h0, lineStep_flag l top e sc m j]
    rw [ih (j + 1) (lineStep ⟨l, top, e, sc, false⟩ j).l
      (lineStep ⟨l, top, e, sc, false⟩ j).top (lineStep ⟨l, top, e, sc, false⟩ j).empty
      (lineStep ⟨l, top, e, sc, false⟩ j).score
      (m || (lineStep ⟨l, top, e, sc, false⟩ j).modified)]
    rw [show lineLoop k (j + 1) (lineStep ⟨l, top, e, sc, false⟩ j) =
      lineLoop k (j + 1) ⟨(lineStep ⟨l, top, e, sc, false⟩ j).l,
        (lineStep ⟨l, top, e, sc, false⟩ j).top,
        (lineStep ⟨l, top, e, sc, false⟩ j).empty,
        (lineStep ⟨l, top, e, sc, false⟩ j).score,
        (lineStep ⟨l, top, e, sc, false⟩ j).modified⟩ from rfl]
    rw [ih (j + 1) (lineStep ⟨l, top, e, sc, false⟩ j).l
      (lineStep ⟨l, top, e, sc, false⟩ j).top (lineStep ⟨l, top, e, sc, false⟩ j).empty
      (lineStep ⟨l, top, e, sc, false⟩ j).score
      (lineStep ⟨l, top, e, sc, false⟩ j).modified]
    simp [Bool.or_assoc]

/-! ## The incremental-merge invariant of the inner loop -/

theorem getD_eq_getElem (l : List Nat) (k : Nat) (h : k < l.length) :
    l.getD k 0 = l[k] := by
  simp [List.getD_eq_getElem?_getD, List.getElem?_eq_getElem h]

theorem take_succ_getD (l : List Nat) (j : Nat) (h : j < l.length) :
    l.take (j + 1) = l.take j ++ [l.getD j 0] := by
  rw [List.take_succ, getD_eq_getElem l j h, List.getElem?_eq_getElem h]
  rfl

theorem compact_snoc (a : List Nat) (v : Nat) :
    compact (a ++ [v]) = compact a ++ (if v = 0 then [] else [v]) := by
  unfold compact
  rw [List.filter_append]
  congr 1
  by_cases hv : v = 0 <;> simp [hv]

theorem mrun_snoc (c : List Nat) (v : Nat) : mrun (c ++ [v]) = mstep (mrun c) v := by
  unfold mrun
  rw [List.foldl_append]
  rfl

theorem mrun_compact_pend (l0 : List Nat) (hb : ∀ v ∈ l0, v ≤ 254) (j p : Nat)
    (hp : (mrun (compact (l0.take j))).pend = some p) : p ≠ 0 ∧ p ≤ 254 := by
  have hm := mrun_pend_mem _ p hp
  refine ⟨compact_ne_zero _ p hm, ?_⟩
  have hmem : p ∈ l0.take j := (List.mem_filter.mp hm).1
  exact hb p (List.mem_of_mem_take hmem)

theorem BInv_step (l0 : List Nat) (hb : ∀ v ∈ l0, v ≤ 254) (e0 sc0 j : Nat)
    (st : LS) (hj : j < l0.length) (h : BInv l0 e0 sc0 j st) :
    BInv l0 e0 sc0 (j + 1) (lineStep st j) := by
  obtain ⟨hB1, hB2, hB3, hB4, hB5, hB6, hB7, hB8, hB9, hB10⟩ := h
  have hvj : st.l.getD j 0 = l0.getD j 0 := hB5 j le_rfl
  have htake : l0.take (j + 1) = l0.take j ++ [l0.getD j 0] := take_succ_getD l0 j hj
  have hjl : j < st.l.length := by omega
  have htl : st.top < st.l.length := by omega
  unfold BInv
  by_cases hv : l0.getD j 0 = 0
  · -- empty scan cell: nothing happens
    rw [lineStep_skip st j (by rw [hvj]; exact hv)]
    have hm' : mrun (compact (l0.take (j + 1))) = mrun (compact (l0.take j)) := by
      rw [htake, compact_snoc, if_pos hv, List.append_nil]
    rw [hm']
    refine ⟨hB1, hB2, hB3, ?_, fun k hk => hB5 k (by omega), hB6, hB7, hB8,
      by omega, by omega⟩
    intro k hk1 hk2
    rcases Nat.lt_or_ge k j with h' | h'
    · exact hB4 k hk1 h'
    · have hkj : k = j := by omega
      rw [hkj, hvj]
      exact hv
  · have hvj' : st.l.getD j 0 ≠ 0 := by rw [hvj]; exact hv
    have hm' : mrun (compact (l0.take (j + 1))) =
        mstep (mrun (compact (l0.take j))) (l0.getD j 0) := by
      rw [htake, compact_snoc, if_neg hv, mrun_snoc]
    rcases hpend : (mrun (compact (l0.take j))).pend with - | p
    · -- no pending tile: the cursor cell is empty, slide into it
      have hplen : (mrun (compact (l0.take j))).pend.toList = [] := by rw [hpend]; rfl
      have hvt : st.l.getD st.top 0 = 0 := by
        rw [hB6]
        exact hB4 _ (by rw [hplen]; simp) hB10
      rw [lineStep_slide st j hvj' hvt, hm', mstep_none _ _ hpend]
      have hsw : listSwap st.l j st.top =
          (st.l.set j 0).set st.top (st.l.getD j 0) := by
        rw [listSwap, hvt]
      have hgother : ∀ q, q ≠ st.top → q ≠ j →
          (listSwap st.l j st.top).getD q 0 = st.l.getD q 0 := by
        intro q h1 h2
        rw [hsw, getD_set_other _ _ _ _ h1, getD_set_other _ _ _ _ h2]
      have hgtop : (listSwap st.l j st.top).getD st.top 0 = st.l.getD j 0 := by
        rw [hsw, getD_set_self]
        simpa using htl
      have hgj : (listSwap st.l j st.top).getD j 0 = 0 := by
        rw [hsw, getD_set_other _ _ _ _ (by omega : j ≠ st.top),
          getD_set_self _ _ _ hjl]
      rw [hplen] at hB4 hB9
      simp only [List.length_nil, Nat.add_zero] at hB4 hB9
      refine ⟨?_, ?_, ?_, ?_, ?_, ?_, ?_, ?_, ?_, ?_⟩
      · dsimp only
        rw [hsw]
        simp [hB1]
      · intro k hk
        dsimp only at hk ⊢
        rw [hgother k (by omega) (by omega)]
        exact hB2 k hk
      · intro k hk
        dsimp only at hk ⊢
        simp only [Option.toList_some, List.length_singleton] at hk
        have hk0 : k = 0 := by omega
        rw [hk0, Nat.add_zero, ← hB6, hgtop, hvj]
        rfl
      · intro k hk1 hk2
        dsimp only at hk1
        simp only [Option.toList_some, List.length_singleton] at hk1
        by_cases hkj : k = j
        · rw [hkj]
          exact hgj
        · rw [hgother k (by omega) (by omega)]
          exact hB4 k (by omega) (by omega)
      · intro k hk
        dsimp only
        rw [hgother k (by omega) (by omega)]
        exact hB5 k (by omega)
      · dsimp only
        exact hB6
      · dsimp only
        exact hB7
      · dsimp only
        exact hB8
      · dsimp only
        simp only [Option.toList_some, List.length_singleton]
        omega
      · dsimp only
        omega
    · -- pending tile p sits at the cursor
      have hplen : (mrun (compact (l0.take j))).pend.toList = [p] := by rw [hpend]; rfl
      have hvt : st.l.getD st.top 0 = p := by
        have := hB3 0 (by rw [hplen]; simp)
        rw [hplen] at this
        rw [hB6, ← Nat.add_zero ((mrun (compact (l0.take j))).acc.length)]
        exact this
      obtain ⟨hp0, hp254⟩ := mrun_compact_pend l0 hb j p hpend
      rw [hplen] at hB4 hB9
      simp only [List.length_singleton] at hB4 hB9
      have hacc_at : st.l.getD ((mrun (compact (l0.take j))).acc.length) 0 = p := by
        rw [← hB6]
        exact hvt
      by_cases hvp : l0.getD j 0 = p
      · -- merge
        have heq : st.l.getD j 0 = st.l.getD st.top 0 := by
          rw [hvj, hvt]
          exact hvp
        rw [lineStep_merge st j hvj' (by rw [hvt]; exact hp0) heq, hm',
          mstep_some_eq _ _ _ hpend hvp]
        have hmod : (st.l.getD st.top 0 + 1) % 256 = p + 1 := by
          rw [hvt]
          exact Nat.mod_eq_of_lt (by omega)
        have hgother : ∀ q, q ≠ st.top → q ≠ j →
            ((st.l.set j 0).set st.top ((st.l.getD st.top 0 + 1) % 256)).getD q 0 =
              st.l.getD q 0 := by
          intro q h1 h2
          rw [getD_set_other _ _ _ _ h1, getD_set_other _ _ _ _ h2]
        have hgtop : ((st.l.set j 0).set st.top
            ((st.l.getD st.top 0 + 1) % 256)).getD st.top 0 = p + 1 := by
          rw [getD_set_self _ _ _ (by simpa using htl)]
          exact hmod
        have hgj : ((st.l.set j 0).set st.top
            ((st.l.getD st.top 0 + 1) % 256)).getD j 0 = 0 := by
          rw [getD_set_other _ _ _ _ (by omega : j ≠ st.top),
            getD_set_self _ _ _ hjl]
        refine ⟨?_, ?_, ?_, ?_, ?_, ?_, ?_, ?_, ?_, ?_⟩
        · dsimp only
          simp [hB1]
        · intro k hk
          dsimp only at hk ⊢
          simp only [List.length_append, List.length_singleton] at hk
          by_cases hka : k < (mrun (compact (l0.take j))).acc.length
          · rw [hgother k (by omega) (by omega),
              getD_append_left _ _ _ hka]
            exact hB2 k hka
          · have hke : k = (mrun (compact (l0.take j))).acc.length := by omega
            rw [hke, ← hB6, hgtop, hB6,
              show (mrun (compact (l0.take j))).acc.length =
                (mrun (compact (l0.take j))).acc.length + 0 from rfl,
              getD_append_right]
            rfl
        · intro k hk
          dsimp only at hk
          simp at hk
        · intro k hk1 hk2
          dsimp only at hk1
          simp only [List.length_append, List.length_singleton, Option.toList_none,
            List.length_nil, Nat.add_zero] at hk1
          by_cases hkj : k = j
          · rw [hkj]
            exact hgj
          · rw [hgother k (by omega) (by omega)]
            exact hB4 k (by omega) (by omega)
        · intro k hk
          dsimp only
          rw [hgother k (by omega) (by omega)]
          exact hB5 k (by omega)
        · dsimp only
          simp only [List.length_append, List.length_singleton]
          omega
        · dsimp only
          rw [hB7]
          omega
        · dsimp only
          rw [hB8, hvt, Nat.mod_add_mod]
          congr 1
          omega
        · dsimp only
          simp only [List.length_append, List.length_singleton, Option.toList_none,
            List.length_nil]
          omega
        · dsimp only
          simp only [List.length_append, List.length_singleton]
          omega
      · -- different values: cursor advances, possibly closing a gap
        have hne : st.l.getD j 0 ≠ st.l.getD st.top 0 := by
          rw [hvj, hvt]
          exact hvp
        rw [hm', mstep_some_ne _ _ _ hpend hvp]
        by_cases hadv : st.top + 1 = j
        · rw [lineStep_advance st j hvj' (by rw [hvt]; exact hp0) hne hadv]
          refine ⟨?_, ?_, ?_, ?_, ?_, ?_, ?_, ?_, ?_, ?_⟩
          · dsimp only
            exact hB1
          · intro k hk
            dsimp only at hk ⊢
            simp only [List.length_append, List.length_singleton] at hk
            by_cases hka : k < (mrun (compact (l0.take j))).acc.length
            · rw [getD_append_left _ _ _ hka]
              exact hB2 k hka
            · have hke : k = (mrun (compact (l0.take j))).acc.length := by omega
              rw [hke, hacc_at,
                show (mrun (compact (l0.take j))).acc.length =
                  (mrun (compact (l0.take j))).acc.length + 0 from rfl,
                getD_append_right]
              rfl
          · intro k hk
            dsimp only at hk ⊢
            simp only [Option.toList_some, List.length_singleton] at hk
            have hk0 : k = 0 := by omega
            rw [hk0, Nat.add_zero]
            simp only [List.length_append, List.length_singleton]
            rw [show (mrun (compact (l0.take j))).acc.length + 1 = j from by omega,
              hvj]
            rfl
          · intro k hk1 hk2
            dsimp only at hk1
            simp only [List.length_append, List.length_singleton,
              Option.toList_some] at hk1
            omega
          · intro k hk
            dsimp only
            exact hB5 k (by omega)
          · dsimp only
            simp only [List.length_append, List.length_singleton]
            omega
          · dsimp only
            exact hB7
          · dsimp only
            exact hB8
          · dsimp only
            simp only [List.length_append, List.length_singleton, Option.toList_some]
            omega
          · dsimp only
            simp only [List.length_append, List.length_singleton]
            omega
        · -- close the gap
          have hlt : st.top + 1 < j := by omega
          have hz : st.l.getD (st.top + 1) 0 = 0 := by
            apply hB4
            · omega
            · omega
          rw [lineStep_close st j hvj' (by rw [hvt]; exact hp0) hne hadv]
          have hg1 : st.top + 1 < st.l.length := by omega
          have hsw : listSwap st.l j (st.top + 1) =
              (st.l.set j 0).set (st.top + 1) (st.l.getD j 0) := by
            rw [listSwap, hz]
          have hgother : ∀ q, q ≠ st.top + 1 → q ≠ j →
              (listSwap st.l j (st.top + 1)).getD q 0 = st.l.getD q 0 := by
            intro q h1 h2
            rw [hsw, getD_set_other _ _ _ _ h1, getD_set_other _ _ _ _ h2]
          have hgtop : (listSwap st.l j (st.top + 1)).getD (st.top + 1) 0 =
              st.l.getD j 0 := by
            rw [hsw, getD_set_self]
            simpa using hg1
          have hgj : (listSwap st.l j (st.top + 1)).getD j 0 = 0 := by
            rw [hsw, getD_set_other _ _ _ _ (by omega : j ≠ st.top + 1),
              getD_set_self _ _ _ hjl]
          refine ⟨?_, ?_, ?_, ?_, ?_, ?_, ?_, ?_, ?_, ?_⟩
          · dsimp only
            rw [hsw]
            simp [hB1]
          · intro k hk
            dsimp only at hk ⊢
            simp only [List.length_append, List.length_singleton] at hk
            by_cases hka : k < (mrun (compact (l0.take j))).acc.length
            · rw [hgother k (by omega) (by omega), getD_append_left _ _ _ hka]
              exact hB2 k hka
            · have hke : k = (mrun (compact (l0.take j))).acc.length := by omega
              rw [hke, hgother _ (by omega) (by omega), hacc_at,
                show (mrun (compact (l0.take j))).acc.length =
                  (mrun (compact (l0.take j))).acc.length + 0 from rfl,
                getD_append_right]
              rfl
          · intro k hk
            dsimp only at hk ⊢
            simp only [Option.toList_some, List.length_singleton] at hk
            have hk0 : k = 0 := by omega
            rw [hk0, Nat.add_zero]
            simp only [List.length_append, List.length_singleton]
            rw [show (mrun (compact (l0.take j))).acc.length + 1 =
              st.top + 1 from by omega, hgtop, hvj]
            rfl
          · intro k hk1 hk2
            dsimp only at hk1
            simp only [List.length_append, List.length_singleton,
              Option.toList_some] at hk1
            by_cases hkj : k = j
            · rw [hkj]
              exact hgj
            · rw [hgother k (by omega) (by omega)]
              exact hB4 k (by omega) (by omega)
          · intro k hk
            dsimp only
            rw [hgother k (by omega) (by omega)]
            exact hB5 k (by omega)
          · dsimp only
            simp only [List.length_append, List.length_singleton]
            omega
          · dsimp only
            exact hB7
          · dsimp only
            exact hB8
          · dsimp only
            simp only [List.length_append, List.length_singleton, Option.toList_some]
            omega
          · dsimp only
            simp only [List.length_append, List.length_singleton]
            omega

theorem BInv_loop (l0 : List Nat) (hb : ∀ v ∈ l0, v ≤ 254) (e0 sc0 : Nat) :
    ∀ k j st, j + k ≤ l0.length → BInv l0 e0 sc0 j st →
      BInv l0 e0 sc0 (j + k) (lineLoop k j st) := by
  intro k
  induction k with
  | zero =>
    intro j st h hi
    simpa using hi
  | succ k ih =>
    intro j st h hi
    have hj : j < l0.length := by omega
    have h1 := BInv_step l0 hb e0 sc0 j st hj hi
    have h2 := ih (j + 1) (lineStep st j) (by omega) h1
    rw [show lineLoop (k + 1) j st = lineLoop k (j + 1) (lineStep st j) from rfl,
      show j + (k + 1) = (j + 1) + k by omega]
    exact h2

theorem BInv_init (l0 : List Nat) (e0 sc0 : Nat) (hlen : 1 ≤ l0.length)
    (hsc : sc0 < 2 ^ 32) : BInv l0 e0 sc0 1 ⟨l0, 0, e0, sc0, false⟩ := by
  have htake1 : l0.take 1 = [l0.getD 0 0] := by
    have h0 := take_succ_getD l0 0 (by omega)
    rw [List.take_zero, List.nil_append] at h0
    exact h0
  unfold BInv
  by_cases hv : l0.getD 0 0 = 0
  · have hm1 : mrun (compact (l0.take 1)) = ⟨[], none, 0, 0⟩ := by
      rw [htake1]
      unfold compact
      rw [hv]
      rfl
    rw [hm1]
    refine ⟨rfl, ?_, ?_, ?_, fun k hk => rfl, rfl, by simp, ?_, by simp, by simp⟩
    · intro k hk
      simp at hk
    · intro k hk
      simp at hk
    · intro k hk1 hk2
      dsimp only
      have hk0 : k = 0 := by omega
      rw [hk0]
      exact hv
    · dsimp only
      omega
  · have hm1 : mrun (compact (l0.take 1)) = ⟨[], some (l0.getD 0 0), 0, 0⟩ := by
      rw [htake1]
      have hc : compact [l0.getD 0 0] = [l0.getD 0 0] := by
        unfold compact
        rw [List.filter_cons, if_pos (by simpa using hv)]
        rfl
      rw [hc]
      unfold mrun
      rw [List.foldl_cons, mstep_none ⟨[], none, 0, 0⟩ _ rfl]
      rfl
    rw [hm1]
    refine ⟨rfl, ?_, ?_, ?_, fun k hk => rfl, rfl, by simp, ?_, by simp, by simp⟩
    · intro k hk
      simp at hk
    · intro k hk
      dsimp only at hk ⊢
      simp only [Option.toList_some, List.length_singleton] at hk
      have hk0 : k = 0 := by omega
      rw [hk0]
      rfl
    · intro k hk1 hk2
      dsimp only at hk1
      simp only [Option.toList_some, List.length_singleton] at hk1
      omega
    · dsimp only
      omega

theorem lineRun_spec (l0 : List Nat) (hb : ∀ v ∈ l0, v ≤ 254) (e0 sc0 : Nat)
    (hlen : 1 ≤ l0.length) (hsc : sc0 < 2 ^ 32) :
    (lineLoop (l0.length - 1) 1 ⟨l0, 0, e0, sc0, false⟩).l = slideSpec l0.length l0 ∧
    (lineLoop (l0.length - 1) 1 ⟨l0, 0, e0, sc0, false⟩).empty =
      e0 + mergeCount (compact l0) ∧
    (lineLoop (l0.length - 1) 1 ⟨l0, 0, e0, sc0, false⟩).score =
      (sc0 + mergeScore (compact l0)) % 2 ^ 32 := by
  have hfin := BInv_loop l0 hb e0 sc0 (l0.length - 1) 1 ⟨l0, 0, e0, sc0, false⟩
    (by omega) (BInv_init l0 e0 sc0 hlen hsc)
  rw [show 1 + (l0.length - 1) = l0.length by omega] at hfin
  unfold BInv at hfin
  rw [List.take_length] at hfin
  obtain ⟨hB1, hB2, hB3, hB4, hB5, hB6, hB7, hB8, hB9, hB10⟩ := hfin
  obtain ⟨hmp, hcnt, hscr⟩ := mrun_spec (compact l0)
  refine ⟨?_, by rw [hB7, hcnt], by rw [hB8, hscr]⟩
  have hsl : (slideSpec l0.length l0).length = l0.length :=
    slideSpec_length _ _ rfl
  have hmpl : (mergePairs (compact l0)).length =
      (mrun (compact l0)).acc.length + (mrun (compact l0)).pend.toList.length := by
    rw [← hmp, List.length_append]
  apply ext_getD _ _ (by rw [hB1, hsl])
  intro k hk
  rw [hB1] at hk
  have hsl2 : slideSpec l0.length l0 =
      ((mrun (compact l0)).acc ++ (mrun (compact l0)).pend.toList) ++
        List.replicate (l0.length - (mergePairs (compact l0)).length) 0 := by
    unfold slideSpec
    rw [hmp]
  rcases Nat.lt_or_ge k ((mrun (compact l0)).acc.length) with hka | hka
  · rw [hB2 k hka, hsl2,
      getD_append_left _ _ _ (by simp only [List.length_append]; omega),
      getD_append_left _ _ _ hka]
  · rcases Nat.lt_or_ge k ((mrun (compact l0)).acc.length +
        (mrun (compact l0)).pend.toList.length) with hkb | hkb
    · rw [show k = (mrun (compact l0)).acc.length +
        (k - (mrun (compact l0)).acc.length) from by omega]
      rw [hB3 _ (by omega), hsl2,
        getD_append_left _ _ _ (by simp only [List.length_append]; omega),
        getD_append_right]
    · rw [hB4 k hkb hk, hsl2]
      rw [show k = ((mrun (compact l0)).acc ++
          (mrun (compact l0)).pend.toList).length + (k -
          ((mrun (compact l0)).acc ++ (mrun (compact l0)).pend.toList).length) from by
        simp only [List.length_append]
        omega]
      rw [getD_append_right, getD_replicate]

theorem lineRun_modified_iff (l0 : List Nat) (hb : ∀ v ∈ l0, v ≤ 254)
    (e0 sc0 : Nat) (hlen : 1 ≤ l0.length) (hsc : sc0 < 2 ^ 32) :
    ((lineLoop (l0.length - 1) 1 ⟨l0, 0, e0, sc0, false⟩).modified = true ↔
      slideSpec l0.length l0 ≠ l0) := by
  constructor
  · intro hm
    have hne := lineLoop_modified_ne l0 hb e0 sc0 hlen hm
    rw [(lineRun_spec l0 hb e0 sc0 hlen hsc).1] at hne
    exact hne
  · intro hne
    cases hmod : (lineLoop (l0.length - 1) 1 ⟨l0, 0, e0, sc0, false⟩).modified with
    | true => rfl
    | false =>
      obtain ⟨hl, -, -, -⟩ := lineLoop_not_modified _ _ _ hmod
      have h1 := (lineRun_spec l0 hb e0 sc0 hlen hsc).1
      exact absurd (by rw [← h1, hl]) hne

/-! ## Simulation of the strided inner loop by the line-local loop -/

theorem posL_lt (lt is : Int) (n L : Nat) (hg : GoodLine lt is n L)
    (t : Nat) (ht : t < n) : posL lt is t < L := by
  obtain ⟨-, hbnd⟩ := hg
  obtain ⟨h1, h2⟩ := hbnd t ht
  unfold posL
  omega

theorem posL_inj (lt is : Int) (n L : Nat) (hg : GoodLine lt is n L) (a b : Nat)
    (ha : a < n) (hb : b < n) (hne : a ≠ b) : posL lt is a ≠ posL lt is b := by
  obtain ⟨his, hbnd⟩ := hg
  obtain ⟨ha1, -⟩ := hbnd a ha
  obtain ⟨hb1, -⟩ := hbnd b hb
  unfold posL
  intro hc
  have heq : lt + (a : Int) * is = lt + (b : Int) * is := by omega
  have hab : (a : Int) * is = (b : Int) * is := by linarith
  have : (a : Int) = (b : Int) := mul_right_cancel₀ his hab
  exact hne (by exact_mod_cast this)

theorem innerStep_skip (is : Int) (st : MH) (top it : Int)
    (h : st.grid.getD it.toNat 0 = 0) : innerStep is st top it = (st, top) := by
  simp only [innerStep]
  rw [if_pos h]

theorem innerStep_slide (is : Int) (st : MH) (top it : Int)
    (h : st.grid.getD it.toNat 0 ≠ 0) (ht : st.grid.getD top.toNat 0 = 0) :
    innerStep is st top it =
      ({ st with grid := listSwap st.grid it.toNat top.toNat, modified := true }, top) := by
  simp only [innerStep]
  rw [if_neg h, if_pos ht]

theorem innerStep_merge (is : Int) (st : MH) (top it : Int)
    (h : st.grid.getD it.toNat 0 ≠ 0) (ht : st.grid.getD top.toNat 0 ≠ 0)
    (he : st.grid.getD it.toNat 0 = st.grid.getD top.toNat 0) :
    innerStep is st top it =
      (⟨(st.grid.set it.toNat 0).set top.toNat ((st.grid.getD top.toNat 0 + 1) % 256),
        st.empty + 1, (st.score + 2 ^ st.grid.getD top.toNat 0) % 2 ^ 32, true⟩,
       top + is) := by
  simp only [innerStep]
  rw [if_neg h, if_neg ht, if_pos he]

theorem innerStep_advance (is : Int) (st : MH) (top it : Int)
    (h : st.grid.getD it.toNat 0 ≠ 0) (ht : st.grid.getD top.toNat 0 ≠ 0)
    (hne : st.grid.getD it.toNat 0 ≠ st.grid.getD top.toNat 0)
    (hj : top + is = it) : innerStep is st top it = (st, top + is) := by
  simp only [innerStep]
  rw [if_neg h, if_neg ht, if_neg hne, if_pos hj]

theorem innerStep_close (is : Int) (st : MH) (top it : Int)
    (h : st.grid.getD it.toNat 0 ≠ 0) (ht : st.grid.getD top.toNat 0 ≠ 0)
    (hne : st.grid.getD it.toNat 0 ≠ st.grid.getD top.toNat 0)
    (hj : top + is ≠ it) :
    innerStep is st top it =
      ({ st with grid := listSwap st.grid it.toNat (top + is).toNat,
                 modified := true }, top + is) := by
  simp only [innerStep]
  rw [if_neg h, if_neg ht, if_neg hne, if_neg hj]

theorem simSet (lt is : Int) (n L : Nat) (hg : GoodLine lt is n L)
    (g l : List Nat) (hgl : g.length = L) (hll : l.length = n)
    (h3 : ∀ t, t < n → g.getD (posL lt is t) 0 = l.getD t 0)
    (t0 : Nat) (ht0 : t0 < n) (v : Nat) :
    ∀ t, t < n → (g.set (posL lt is t0) v).getD (posL lt is t) 0 =
      (l.set t0 v).getD t 0 := by
  intro t ht
  by_cases hte : t = t0
  · rw [hte, getD_set_self _ _ _ (by rw [hgl]; exact posL_lt lt is n L hg t0 ht0),
      getD_set_self _ _ _ (by rw [hll]; exact ht0)]
  · rw [getD_set_other _ _ _ _ (posL_inj lt is n L hg t t0 ht ht0 hte),
      getD_set_other _ _ _ _ hte]
    exact h3 t ht

theorem innerStep_sim (lt is : Int) (n : Nat) (g0 : List Nat)
    (hg : GoodLine lt is n g0.length) (st : MH) (ps : LS) (ftop : Int) (j : Nat)
    (hrel : SimRel lt is n g0 st ps) (htopf : ftop = lt + (ps.top : Int) * is)
    (htj : ps.top < j) (hjn : j < n) :
    SimRel lt is n g0 (innerStep is st ftop (lt + (j : Int) * is)).1 (lineStep ps j) ∧
    (innerStep is st ftop (lt + (j : Int) * is)).2 =
      lt + ((lineStep ps j).top : Int) * is ∧
    (lineStep ps j).top ≤ ps.top + 1 := by
  obtain ⟨hs1, hs2, hs3, hs4, hs5, hs6, hs7⟩ := hrel
  have htn : ps.top < n := lt_trans htj hjn
  have hitoNat : (lt + (j : Int) * is).toNat = posL lt is j := rfl
  have hftoNat : ftop.toNat = posL lt is ps.top := by
    rw [htopf]
    rfl
  have hrj : st.grid.getD (lt + (j : Int) * is).toNat 0 = ps.l.getD j 0 := by
    rw [hitoNat]
    exact hs3 j hjn
  have hrt : st.grid.getD ftop.toNat 0 = ps.l.getD ps.top 0 := by
    rw [hftoNat]
    exact hs3 ps.top htn
  have hlenL : st.grid.length = g0.length := hs1
  by_cases hv : ps.l.getD j 0 = 0
  · rw [innerStep_skip is st ftop _ (by rw [hrj]; exact hv), lineStep_skip ps j hv]
    exact ⟨⟨hs1, hs2, hs3, hs4, hs5, hs6, hs7⟩, htopf, by omega⟩
  · by_cases hvt : ps.l.getD ps.top 0 = 0
    · rw [innerStep_slide is st ftop _ (by rw [hrj]; exact hv) (by rw [hrt]; exact hvt),
        lineStep_slide ps j hv hvt]
      have hswf : listSwap st.grid (lt + (j : Int) * is).toNat ftop.toNat =
          (st.grid.set (posL lt is j) (ps.l.getD ps.top 0)).set (posL lt is ps.top)
            (ps.l.getD j 0) := by
        rw [listSwap, hrt, hrj, hitoNat, hftoNat]
      have hswp : listSwap ps.l j ps.top =
          (ps.l.set j (ps.l.getD ps.top 0)).set ps.top (ps.l.getD j 0) := rfl
      refine ⟨⟨?_, ?_, ?_, ?_, hs5, hs6, rfl⟩, htopf, by dsimp only; omega⟩
      · dsimp only
        rw [hswf]
        simp [hs1]
      · dsimp only
        rw [hswp]
        simp [hs2]
      · intro t ht
        dsimp only
        rw [hswf, hswp]
        exact simSet lt is n g0.length hg _ _ (by simp [hs1]) (by simp [hs2])
          (simSet lt is n g0.length hg st.grid ps.l hs1 hs2 hs3 j hjn _)
          ps.top htn _ t ht
      · intro q hq
        dsimp only
        rw [hswf, getD_set_other _ _ _ _ (hq ps.top htn),
          getD_set_other _ _ _ _ (hq j hjn)]
        exact hs4 q hq
    · by_cases hve : ps.l.getD j 0 = ps.l.getD ps.top 0
      · rw [innerStep_merge is st ftop _ (by rw [hrj]; exact hv) (by rw [hrt]; exact hvt)
            (by rw [hrj, hrt]; exact hve),
          lineStep_merge ps j hv hvt hve]
        refine ⟨⟨?_, ?_, ?_, ?_, by dsimp only; rw [hs5], by dsimp only; rw [hs6, hrt],
          rfl⟩, ?_, by dsimp only; omega⟩
        · dsimp only
          simp [hs1]
        · dsimp only
          simp [hs2]
        · intro t ht
          dsimp only
          rw [hrt, hitoNat, hftoNat]
          exact simSet lt is n g0.length hg _ _ (by simp [hs1]) (by simp [hs2])
            (simSet lt is n g0.length hg st.grid ps.l hs1 hs2 hs3 j hjn 0)
            ps.top htn _ t ht
        · intro q hq
          dsimp only
          rw [hitoNat, hftoNat,
            getD_set_other _ _ _ _ (hq ps.top htn), getD_set_other _ _ _ _ (hq j hjn)]
          exact hs4 q hq
        · dsimp only
          rw [htopf]
          push_cast
          ring
      · have hiff : (ftop + is = lt + (j : Int) * is) ↔ (ps.top + 1 = j) := by
          rw [htopf]
          constructor
          · intro hcc
            have hab : ((ps.top : Int) + 1) * is = (j : Int) * is := by ring_nf; linarith
            have := mul_right_cancel₀ hg.1 hab
            exact_mod_cast this
          · intro hcc
            rw [← hcc]
            push_cast
            ring
        by_cases hadv : ps.top + 1 = j
        · rw [innerStep_advance is st ftop _ (by rw [hrj]; exact hv)
              (by rw [hrt]; exact hvt) (by rw [hrj, hrt]; exact hve) (hiff.mpr hadv),
            lineStep_advance ps j hv hvt hve hadv]
          refine ⟨⟨hs1, hs2, hs3, hs4, hs5, hs6, hs7⟩, ?_, by dsimp only; omega⟩
          dsimp only
          rw [htopf]
          push_cast
          ring
        · have hne2 : ftop + is ≠ lt + (j : Int) * is := fun hcc => hadv (hiff.mp hcc)
          rw [innerStep_close is st ftop _ (by rw [hrj]; exact hv)
              (by rw [hrt]; exact hvt) (by rw [hrj, hrt]; exact hve) hne2,
            lineStep_close ps j hv hvt hve hadv]
          have htn1 : ps.top + 1 < n := by omega
          have hts : (ftop + is).toNat = posL lt is (ps.top + 1) := by
            rw [htopf]
            unfold posL
            congr 1
            push_cast
            ring
          have hrt1 : st.grid.getD (ftop + is).toNat 0 = ps.l.getD (ps.top + 1) 0 := by
            rw [hts]
            exact hs3 _ htn1
          have hswf : listSwap st.grid (lt + (j : Int) * is).toNat (ftop + is).toNat =
              (st.grid.set (posL lt is j) (ps.l.getD (ps.top + 1) 0)).set
                (posL lt is (ps.top + 1)) (ps.l.getD j 0) := by
            rw [listSwap, hrt1, hrj, hitoNat, hts]
          have hswp : listSwap ps.l j (ps.top + 1) =
              (ps.l.set j (ps.l.getD (ps.top + 1) 0)).set (ps.top + 1)
                (ps.l.getD j 0) := rfl
          refine ⟨⟨?_, ?_, ?_, ?_, hs5, hs6, rfl⟩, ?_, by dsimp only; omega⟩
          · dsimp only
            rw [hswf]
            simp [hs1]
          · dsimp only
            rw [hswp]
            simp [hs2]
          · intro t ht
            dsimp only
            rw [hswf, hswp]
            exact simSet lt is n g0.length hg _ _ (by simp [hs1]) (by simp [hs2])
              (simSet lt is n g0.length hg st.grid ps.l hs1 hs2 hs3 j hjn _)
              (ps.top + 1) htn1 _ t ht
          · intro q hq
            dsimp only
            rw [hswf, getD_set_other _ _ _ _ (hq (ps.top + 1) htn1),
              getD_set_other _ _ _ _ (hq j hjn)]
            exact hs4 q hq
          · dsimp only
            rw [htopf]
            push_cast
            ring

theorem innerLoop_sim (lt is : Int) (n : Nat) (g0 : List Nat)
    (hg : GoodLine lt is n g0.length) :
    ∀ (k j : Nat) (st : MH) (ps : LS) (ftop : Int),
      SimRel lt is n g0 st ps → ftop = lt + (ps.top : Int) * is →
      ps.top < j → j + k ≤ n →
      SimRel lt is n g0 (innerLoop is lt k ftop j st) (lineLoop k j ps) := by
  intro k
  induction k with
  | zero =>
    intro j st ps ftop hrel htopf htj hjk
    exact hrel
  | succ k ih =>
    intro j st ps ftop hrel htopf htj hjk
    have hjn : j < n := by omega
    obtain ⟨hrel', htop', hle⟩ := innerStep_sim lt is n g0 hg st ps ftop j hrel htopf htj hjn
    exact ih (j + 1) _ _ _ hrel' htop' (by omega) (by omega)

/-! ## The four directions: bounds, injectivity and coverage of the
strided cell positions -/

theorem idx_bound (n i t : Nat) (hi : i < n) (ht : t < n) : i + t * n < n * n := by
  have h1 : i + t * n < (t + 1) * n := by
    rw [Nat.succ_mul]
    omega
  have h2 : (t + 1) * n ≤ n * n := Nat.mul_le_mul_right n ht
  omega

theorem topStart_up (n : Nat) : topStart n Dir.up = 0 := by
  unfold topStart dirIntegral
  norm_num

theorem topStart_down (n : Nat) : topStart n Dir.down = ((n * n - 1 : Nat) : Int) := by
  unfold topStart dirIntegral
  norm_num

theorem topStart_left (n : Nat) : topStart n Dir.left = 0 := by
  unfold topStart dirIntegral
  rw [show (2 &&& 1 : Nat) = 0 from rfl]
  norm_num

theorem topStart_right (n : Nat) : topStart n Dir.right = ((n * n - 1 : Nat) : Int) := by
  unfold topStart dirIntegral
  rw [show (3 &&& 1 : Nat) = 1 from rfl]
  norm_num

theorem posVal_up (n i t : Nat) :
    topStart n Dir.up + (i : Int) * topStride n Dir.up + (t : Int) * itStride n Dir.up =
      ((i + t * n : Nat) : Int) := by
  rw [topStart_up]
  simp only [topStride, itStride]
  push_cast
  ring

theorem posVal_down (n i t : Nat) (h : i + t * n < n * n) :
    topStart n Dir.down + (i : Int) * topStride n Dir.down +
      (t : Int) * itStride n Dir.down = ((n * n - 1 - (i + t * n) : Nat) : Int) := by
  rw [topStart_down]
  simp only [topStride, itStride]
  rw [Nat.cast_sub (by omega : i + t * n ≤ n * n - 1),
    Nat.cast_sub (by omega : 1 ≤ n * n)]
  push_cast
  ring

theorem posVal_left (n i t : Nat) :
    topStart n Dir.left + (i : Int) * topStride n Dir.left +
      (t : Int) * itStride n Dir.left = ((i * n + t : Nat) : Int) := by
  rw [topStart_left]
  simp only [topStride, itStride]
  push_cast
  ring

theorem posVal_right (n i t : Nat) (h : i * n + t < n * n) :
    topStart n Dir.right + (i : Int) * topStride n Dir.right +
      (t : Int) * itStride n Dir.right = ((n * n - 1 - (i * n + t) : Nat) : Int) := by
  rw [topStart_right]
  simp only [topStride, itStride]
  rw [Nat.cast_sub (by omega : i * n + t ≤ n * n - 1),
    Nat.cast_sub (by omega : 1 ≤ n * n)]
  push_cast
  ring

theorem goodLine_dir (n : Nat) (d : Dir) (i : Nat) (hn : 1 ≤ n) (hi : i < n) :
    GoodLine (topStart n d + (i : Int) * topStride n d) (itStride n d) n (n * n) := by
  cases d with
  | up =>
    refine ⟨by simp [itStride]; omega, fun t ht => ?_⟩
    rw [posVal_up]
    have := idx_bound n i t hi ht
    constructor
    · positivity
    · exact_mod_cast this
  | down =>
    refine ⟨by simp [itStride]; omega, fun t ht => ?_⟩
    rw [posVal_down n i t (idx_bound n i t hi ht)]
    constructor
    · positivity
    · have hnn : 1 ≤ n * n := by
        have := idx_bound n i t hi ht
        omega
      have : n * n - 1 - (i + t * n) < n * n := by omega
      exact_mod_cast this
  | left =>
    refine ⟨by norm_num [itStride], fun t ht => ?_⟩
    rw [posVal_left]
    have := idx_bound n t i ht hi
    constructor
    · positivity
    · have : i * n + t < n * n := by omega
      exact_mod_cast this
  | right =>
    refine ⟨by norm_num [itStride], fun t ht => ?_⟩
    have hbnd : i * n + t < n * n := by
      have := idx_bound n t i ht hi
      omega
    rw [posVal_right n i t hbnd]
    constructor
    · positivity
    · have hnn : 1 ≤ n * n := by omega
      have : n * n - 1 - (i * n + t) < n * n := by omega
      exact_mod_cast this

theorem posNat_eq_posL (n : Nat) (d : Dir) (i t : Nat) :
    posNat n d i t = posL (topStart n d + (i : Int) * topStride n d) (itStride n d) t :=
  rfl

theorem posNat_up (n i t : Nat) : posNat n Dir.up i t = i + t * n := by
  unfold posNat
  rw [posVal_up]
  exact Int.toNat_natCast _

theorem posNat_down (n i t : Nat) (h : i + t * n < n * n) :
    posNat n Dir.down i t = n * n - 1 - (i + t * n) := by
  unfold posNat
  rw [posVal_down n i t h]
  exact Int.toNat_natCast _

theorem posNat_left (n i t : Nat) : posNat n Dir.left i t = i * n + t := by
  unfold posNat
  rw [posVal_left]
  exact Int.toNat_natCast _

theorem posNat_right (n i t : Nat) (h : i * n + t < n * n) :
    posNat n Dir.right i t = n * n - 1 - (i * n + t) := by
  unfold posNat
  rw [posVal_right n i t h]
  exact Int.toNat_natCast _

theorem posNat_lt (n : Nat) (d : Dir) (i t : Nat) (hn : 1 ≤ n) (hi : i < n)
    (ht : t < n) : posNat n d i t < n * n := by
  rw [posNat_eq_posL]
  exact posL_lt _ _ n (n * n) (goodLine_dir n d i hn hi) t ht

theorem lin_inj (n a b a' b' : Nat) (hb : b < n) (hb' : b' < n)
    (h : a * n + b = a' * n + b') : a = a' ∧ b = b' := by
  have hn : 0 < n := by omega
  have key : ∀ x y : Nat, y < n → (x * n + y) / n = x ∧ (x * n + y) % n = y := by
    intro x y hy
    constructor
    · rw [Nat.mul_comm x n, Nat.mul_add_div hn, Nat.div_eq_of_lt hy]
      omega
    · rw [Nat.mul_comm x n, Nat.mul_add_mod]
      exact Nat.mod_eq_of_lt hy
  obtain ⟨hd, hm⟩ := key a b hb
  obtain ⟨hd', hm'⟩ := key a' b' hb'
  constructor
  · rw [← hd, h, hd']
  · rw [← hm, h, hm']

theorem posNat_inj (n : Nat) (d : Dir) (i j i' j' : Nat) (_hn : 1 ≤ n)
    (hi : i < n) (hj : j < n) (hi' : i' < n) (hj' : j' < n)
    (h : posNat n d i j = posNat n d i' j') : i = i' ∧ j = j' := by
  cases d with
  | up =>
    rw [posNat_up, posNat_up] at h
    have h' : j * n + i = j' * n + i' := by omega
    obtain ⟨h1, h2⟩ := lin_inj n j i j' i' hi hi' h'
    exact ⟨h2, h1⟩
  | down =>
    have hx := idx_bound n i j hi hj
    have hx' := idx_bound n i' j' hi' hj'
    rw [posNat_down n i j hx, posNat_down n i' j' hx'] at h
    have h' : i + j * n = i' + j' * n := by omega
    have h'' : j * n + i = j' * n + i' := by omega
    obtain ⟨h1, h2⟩ := lin_inj n j i j' i' hi hi' h''
    exact ⟨h2, h1⟩
  | left =>
    rw [posNat_left, posNat_left] at h
    exact lin_inj n i j i' j' hj hj' h
  | right =>
    have hx : i * n + j < n * n := by
      have := idx_bound n j i hj hi
      omega
    have hx' : i' * n + j' < n * n := by
      have := idx_bound n j' i' hj' hi'
      omega
    rw [posNat_right n i j hx, posNat_right n i' j' hx'] at h
    have h' : i * n + j = i' * n + j' := by omega
    exact lin_inj n i j i' j' hj hj' h'

theorem posNat_cover (n : Nat) (d : Dir) (q : Nat) (hn : 1 ≤ n) (hq : q < n * n) :
    ∃ i j, i < n ∧ j < n ∧ posNat n d i j = q := by
  have hn0 : 0 < n := hn
  cases d with
  | up =>
    refine ⟨q % n, q / n, Nat.mod_lt _ hn0, ?_, ?_⟩
    · rw [Nat.div_lt_iff_lt_mul hn0]
      omega
    · rw [posNat_up]
      exact Nat.mod_add_div' q n
  | down =>
    set q' := n * n - 1 - q with hq'
    have hq'' : q' < n * n := by omega
    refine ⟨q' % n, q' / n, Nat.mod_lt _ hn0, ?_, ?_⟩
    · rw [Nat.div_lt_iff_lt_mul hn0]
      omega
    · rw [posNat_down n _ _ (by rw [Nat.mod_add_div' q' n]; omega)]
      rw [Nat.mod_add_div' q' n]
      omega
  | left =>
    refine ⟨q / n, q % n, ?_, Nat.mod_lt _ hn0, ?_⟩
    · rw [Nat.div_lt_iff_lt_mul hn0]
      omega
    · rw [posNat_left]
      exact Nat.div_add_mod' q n
  | right =>
    set q' := n * n - 1 - q with hq'
    have hq'' : q' < n * n := by omega
    refine ⟨q' / n, q' % n, ?_, Nat.mod_lt _ hn0, ?_⟩
    · rw [Nat.div_lt_iff_lt_mul hn0]
      omega
    · rw [posNat_right n _ _ (by rw [Nat.div_add_mod' q' n]; omega)]
      rw [Nat.div_add_mod' q' n]
      omega

/-! ## Counting zeros line by line -/

theorem countZeros_eq_card (g : List Nat) :
    countZeros g = ((Finset.range g.length).filter (fun q => g.getD q 0 = 0)).card := by
  induction g with
  | nil => simp [countZeros]
  | cons x t ih =>
    rw [show (x :: t).length = t.length + 1 from rfl, Finset.card_filter,
      Finset.sum_range_succ']
    simp only [List.getD_cons_succ, List.getD_cons_zero]
    rw [← Finset.card_filter, countZeros, ih]
    exact Nat.add_comm _ _

theorem lineOf_length (n : Nat) (g : List Nat) (d : Dir) (i : Nat) :
    (lineOf n g d i).length = n := by
  simp [lineOf]

theorem getD_range_map (n t : Nat) (f : Nat → Nat) (h : t < n) :
    ((List.range n).map f).getD t 0 = f t := by
  rw [getD_eq_getElem _ _ (by simpa using h)]
  simp

theorem lineOf_getD (n : Nat) (g : List Nat) (d : Dir) (i t : Nat) (h : t < n) :
    (lineOf n g d i).getD t 0 = g.getD (posNat n d i t) 0 :=
  getD_range_map n t _ h

theorem card_filter_line (n : Nat) (d : Dir) (i : Nat) (g : List Nat)
    (hn : 1 ≤ n) (hi : i < n) :
    (((Finset.range n).image (fun j => posNat n d i j)).filter
      (fun q => g.getD q 0 = 0)).card = countZeros (lineOf n g d i) := by
  rw [Finset.filter_image, Finset.card_image_of_injOn]
  · rw [countZeros_eq_card, lineOf_length]
    apply congrArg
    apply Finset.filter_congr
    intro q hq
    rw [lineOf_getD n g d i q (Finset.mem_range.mp hq)]
  · intro a ha b hb hab
    have ha' : a < n := Finset.mem_range.mp (Finset.mem_filter.mp ha).1
    have hb' : b < n := Finset.mem_range.mp (Finset.mem_filter.mp hb).1
    exact (posNat_inj n d i a i b hn hi ha' hi hb' hab).2

theorem countZeros_split_line (n : Nat) (d : Dir) (i : Nat) (g : List Nat)
    (hn : 1 ≤ n) (hi : i < n) (hlen : g.length = n * n) :
    countZeros g = countZeros (lineOf n g d i) +
      ((Finset.range (n * n) \ (Finset.range n).image (fun j => posNat n d i j)).filter
        (fun q => g.getD q 0 = 0)).card := by
  have hsub : (Finset.range n).image (fun j => posNat n d i j) ⊆ Finset.range (n * n) := by
    intro q hq
    obtain ⟨j, hj, rfl⟩ := Finset.mem_image.mp hq
    exact Finset.mem_range.mpr (posNat_lt n d i j hn hi (Finset.mem_range.mp hj))
  rw [countZeros_eq_card, hlen, ← Finset.union_sdiff_of_subset hsub,
    Finset.filter_union,
    Finset.card_union_of_disjoint (Finset.disjoint_filter_filter Finset.disjoint_sdiff),
    card_filter_line n d i g hn hi]
  congr 3
  rw [Finset.union_sdiff_of_subset hsub]

theorem countZeros_line_update (n : Nat) (d : Dir) (i : Nat) (g g' : List Nat)
    (hn : 1 ≤ n) (hi : i < n) (hlen : g.length = n * n) (hlen' : g'.length = n * n)
    (hoff : ∀ q, (∀ t, t < n → q ≠ posNat n d i t) → g'.getD q 0 = g.getD q 0) :
    countZeros g' + countZeros (lineOf n g d i) =
      countZeros g + countZeros (lineOf n g' d i) := by
  rw [countZeros_split_line n d i g hn hi hlen,
    countZeros_split_line n d i g' hn hi hlen']
  have hcong :
      ((Finset.range (n * n) \ (Finset.range n).image (fun j => posNat n d i j)).filter
        (fun q => g'.getD q 0 = 0)) =
      ((Finset.range (n * n) \ (Finset.range n).image (fun j => posNat n d i j)).filter
        (fun q => g.getD q 0 = 0)) := by
    apply Finset.filter_congr
    intro q hq
    have hnotmem := (Finset.mem_sdiff.mp hq).2
    have hne : ∀ t, t < n → q ≠ posNat n d i t := by
      intro t ht hc
      exact hnotmem (Finset.mem_image.mpr ⟨t, Finset.mem_range.mpr ht, hc.symm⟩)
    rw [hoff q hne]
  rw [hcong]
  omega

/-! ## The outer loop: every line slides independently -/

theorem ne_exists_getD (a b : List Nat) (hl : a.length = b.length) (h : a ≠ b) :
    ∃ k, k < a.length ∧ a.getD k 0 ≠ b.getD k 0 := by
  by_contra hno
  push_neg at hno
  exact h (ext_getD a b hl hno)

theorem OInv_step (n : Nat) (d : Dir) (g0 : List Nat) (e0 sc0 : Nat)
    (hn : 1 ≤ n) (hg0 : g0.length = n * n) (hb : ∀ v ∈ g0, v ≤ 254)
    (i : Nat) (hi : i < n) (st : MH) (h : OInv n d g0 e0 sc0 i st) :
    OInv n d g0 e0 sc0 (i + 1)
      (innerLoop (itStride n d) (topStart n d + (i : Int) * topStride n d) (n - 1)
        (topStart n d + (i : Int) * topStride n d) 1 st) := by
  obtain ⟨hO1, hO2, hO3, hO4, hO5, hO6, hO7⟩ := h
  have hgood : GoodLine (topStart n d + (i : Int) * topStride n d) (itStride n d)
      n (n * n) := goodLine_dir n d i hn hi
  have hgood' : GoodLine (topStart n d + (i : Int) * topStride n d) (itStride n d)
      n st.grid.length := by
    rw [hO1, hg0]
    exact hgood
  have hline_cur : lineOf n st.grid d i = lineOf n g0 d i := by
    apply ext_getD _ _ (by rw [lineOf_length, lineOf_length])
    intro k hk
    rw [lineOf_length] at hk
    rw [lineOf_getD _ _ _ _ _ hk, lineOf_getD _ _ _ _ _ hk]
    exact hO2 i le_rfl hi k hk
  have hlib : ∀ v ∈ lineOf n g0 d i, v ≤ 254 := by
    intro v hv
    unfold lineOf at hv
    obtain ⟨t, ht, rfl⟩ := List.mem_map.mp hv
    have ht' : t < n := by simpa using List.mem_range.mp ht
    have hpos : posNat n d i t < g0.length := by
      rw [hg0]
      exact posNat_lt n d i t hn hi ht'
    exact hb _ (getD_mem g0 _ hpos)
  have hlen_li : (lineOf n g0 d i).length = n := lineOf_length n g0 d i
  have hsc : st.score < 2 ^ 32 := by
    rw [hO5]
    exact Nat.mod_lt _ (by norm_num)
  have hrel0 : SimRel (topStart n d + (i : Int) * topStride n d) (itStride n d) n
      st.grid st ⟨lineOf n g0 d i, 0, st.empty, st.score, st.modified⟩ := by
    refine ⟨rfl, by dsimp only; rw [hlen_li], ?_, fun q hq => rfl, rfl, rfl, rfl⟩
    intro t ht
    dsimp only
    rw [← posNat_eq_posL, hO2 i le_rfl hi t ht]
    exact (lineOf_getD n g0 d i t ht).symm
  have hsim := innerLoop_sim (topStart n d + (i : Int) * topStride n d) (itStride n d)
    n st.grid hgood' (n - 1) 1 st ⟨lineOf n g0 d i, 0, st.empty, st.score, st.modified⟩
    (topStart n d + (i : Int) * topStride n d) hrel0
    (by dsimp only; push_cast; ring) (by dsimp only; omega) (by omega)
  obtain ⟨hr1, hr2, hr3, hr4, hr5, hr6, hr7⟩ := hsim
  have hflag := lineLoop_flag (n - 1) 1 (lineOf n g0 d i) 0 st.empty st.score st.modified
  have hspec := lineRun_spec (lineOf n g0 d i) hlib st.empty st.score
    (by rw [hlen_li]; omega) hsc
  rw [hlen_li] at hspec
  obtain ⟨hsl, hse, hss⟩ := hspec
  have hmodiff := lineRun_modified_iff (lineOf n g0 d i) hlib st.empty st.score
    (by rw [hlen_li]; omega) hsc
  rw [hlen_li] at hmodiff
  rw [hflag] at hr3 hr5 hr6 hr7
  dsimp only at hr3 hr5 hr6 hr7
  -- positions of other lines are untouched
  have hoff : ∀ i' j', i' < n → j' < n → i' ≠ i →
      (innerLoop (itStride n d) (topStart n d + (i : Int) * topStride n d) (n - 1)
        (topStart n d + (i : Int) * topStride n d) 1 st).grid.getD
          (posNat n d i' j') 0 = st.grid.getD (posNat n d i' j') 0 := by
    intro i' j' hi' hj' hne
    apply hr4
    intro t ht hc
    rw [← posNat_eq_posL] at hc
    exact hne (posNat_inj n d i' j' i t hn hi' hj' hi ht hc).1
  refine ⟨?_, ?_, ?_, ?_, ?_, ?_, ?_⟩
  · rw [hr1, hO1]
  · intro i' hii' hi' j' hj'
    rw [hoff i' j' hi' hj' (by omega)]
    exact hO2 i' (by omega) hi' j' hj'
  · intro i' hi'
    rcases Nat.lt_or_ge i' i with hcase | hcase
    · have hlines : lineOf n (innerLoop (itStride n d)
          (topStart n d + (i : Int) * topStride n d) (n - 1)
          (topStart n d + (i : Int) * topStride n d) 1 st).grid d i' =
          lineOf n st.grid d i' := by
        apply ext_getD _ _ (by rw [lineOf_length, lineOf_length])
        intro k hk
        rw [lineOf_length] at hk
        rw [lineOf_getD _ _ _ _ _ hk, lineOf_getD _ _ _ _ _ hk]
        exact hoff i' k (by omega) hk (by omega)
      rw [hlines]
      exact hO3 i' hcase
    · have hieq : i' = i := by omega
      rw [hieq]
      apply ext_getD _ _ (by
        rw [lineOf_length, slideSpec_length n _ hlen_li])
      intro k hk
      rw [lineOf_length] at hk
      rw [lineOf_getD _ _ _ _ _ hk, posNat_eq_posL, hr3 k hk, hsl]
  · rw [hr5, hse, hO4, Finset.sum_range_succ]
    omega
  · rw [hr6, hss, hO5, Nat.mod_add_mod, Finset.sum_range_succ]
    congr 1
    omega
  · have hupd := countZeros_line_update n d i st.grid
      (innerLoop (itStride n d) (topStart n d + (i : Int) * topStride n d) (n - 1)
        (topStart n d + (i : Int) * topStride n d) 1 st).grid hn hi
      (by rw [hO1, hg0]) (by rw [hr1, hO1, hg0]) (by
        intro q hq
        apply hr4
        intro t ht hc
        exact hq t ht (by rw [posNat_eq_posL]; exact hc))
    have hlres : lineOf n (innerLoop (itStride n d)
        (topStart n d + (i : Int) * topStride n d) (n - 1)
        (topStart n d + (i : Int) * topStride n d) 1 st).grid d i =
        slideSpec n (lineOf n g0 d i) := by
      apply ext_getD _ _ (by rw [lineOf_length, slideSpec_length n _ hlen_li])
      intro k hk
      rw [lineOf_length] at hk
      rw [lineOf_getD _ _ _ _ _ hk, posNat_eq_posL, hr3 k hk, hsl]
    rw [hline_cur, hlres, countZeros_slideSpec n _ hlen_li] at hupd
    rw [hO6] at hupd
    rw [Finset.sum_range_succ]
    omega
  · rw [hr7]
    rw [Bool.or_eq_true, hO7, hmodiff]
    constructor
    · rintro (⟨i', hi', hne⟩ | hne)
      · exact ⟨i', by omega, hne⟩
      · exact ⟨i, by omega, hne⟩
    · rintro ⟨i', hi', hne⟩
      rcases Nat.lt_or_ge i' i with hcase | hcase
      · exact Or.inl ⟨i', hcase, hne⟩
      · have : i' = i := by omega
        rw [this] at hne
        exact Or.inr hne

theorem outerLoop_inv (n : Nat) (d : Dir) (g0 : List Nat) (e0 sc0 : Nat)
    (hn : 1 ≤ n) (hg0 : g0.length = n * n) (hb : ∀ v ∈ g0, v ≤ 254) :
    ∀ k i st, i + k = n → OInv n d g0 e0 sc0 i st →
      OInv n d g0 e0 sc0 n (outerLoop n d k i st) := by
  intro k
  induction k with
  | zero =>
    intro i st h hinv
    rw [show i = n from by omega] at hinv
    exact hinv
  | succ k ih =>
    intro i st h hinv
    have hi : i < n := by omega
    exact ih (i + 1) _ (by omega) (OInv_step n d g0 e0 sc0 hn hg0 hb i hi st hinv)

theorem moveHelper_master (n : Nat) (d : Dir) (g : List Nat) (e sc : Nat)
    (hn : 1 ≤ n) (hg : g.length = n * n) (hb : ∀ v ∈ g, v ≤ 254) (hsc : sc < 2 ^ 32) :
    OInv n d g e sc n (moveHelper n d g e sc) := by
  unfold moveHelper
  apply outerLoop_inv n d g e sc hn hg hb n 0 ⟨g, e, sc, false⟩ (by omega)
  refine ⟨rfl, fun i' h1 h2 j hj => rfl, fun i' hi' => absurd hi' (by omega), ?_, ?_, ?_, ?_⟩
  · simp
  · simp
    omega
  · simp
  · simp

theorem moveHelper_modified_iff (n : Nat) (d : Dir) (g : List Nat) (e sc : Nat)
    (hn : 1 ≤ n) (hg : g.length = n * n) (hb : ∀ v ∈ g, v ≤ 254) (hsc : sc < 2 ^ 32) :
    ((moveHelper n d g e sc).modified = true ↔ (moveHelper n d g e sc).grid ≠ g) := by
  obtain ⟨hO1, hO2, hO3, hO4, hO5, hO6, hO7⟩ := moveHelper_master n d g e sc hn hg hb hsc
  rw [hO7]
  constructor
  · rintro ⟨i', hi', hne⟩ hgeq
    have h3 := hO3 i' hi'
    rw [hgeq] at h3
    exact hne h3.symm
  · intro hne
    by_contra hno
    push_neg at hno
    apply hne
    apply ext_getD _ _ (by rw [hO1])
    intro q hq
    rw [hO1, hg] at hq
    obtain ⟨i, j, hi, hj, hpos⟩ := posNat_cover n d q hn hq
    rw [← hpos]
    have h3 := congrArg (fun l => l.getD j 0) (hO3 i hi)
    dsimp only at h3
    rw [lineOf_getD _ _ _ _ _ hj] at h3
    rw [h3]
    have hnoi := hno i hi
    rw [hnoi, lineOf_getD _ _ _ _ _ hj]

/-! ## Unfolding lemmas for `move` -/

theorem move_not_modified (n : Nat) (s : GridState) (d : Dir) (h0 : ¬s.empty = 0)
    (hm : (moveHelper n d s.grid s.empty s.score).modified = false) :
    move n s d = some
      { s with grid := (moveHelper n d s.grid s.empty s.score).grid,
               empty := (moveHelper n d s.grid s.empty s.score).empty,
               score := (moveHelper n d s.grid s.empty s.score).score } := by
  unfold move
  rw [if_neg h0]
  dsimp only
  rw [if_neg (by rw [hm]; exact Bool.false_ne_true)]

theorem move_modified (n : Nat) (s : GridState) (d : Dir) (h0 : ¬s.empty = 0)
    (hm : (moveHelper n d s.grid s.empty s.score).modified = true) :
    move n s d = spawnNewNumber
      { s with grid := (moveHelper n d s.grid s.empty s.score).grid,
               empty := (moveHelper n d s.grid s.empty s.score).empty,
               score := (moveHelper n d s.grid s.empty s.score).score } := by
  unfold move
  rw [if_neg h0]
  dsimp only
  rw [if_pos hm]

/-! ## Claims C8, C1, C6, C5 -/

/-- Claim C8, counterexample: a board cell's exponent can grow by more than
one in a single pass — a tile slides into the cell and merges there. On the
3×3 board `[0,1,1,...]` a left move turns cell 0 from 0 into 2. -/
theorem c8_counterexample :
    (moveHelper 3 Dir.left [0, 1, 1, 0, 0, 0, 0, 0, 0] 7 0).grid.getD 0 0 = 2 ∧
    ([0, 1, 1, 0, 0, 0, 0, 0, 0] : List Nat).getD 0 0 = 0 ∧ ¬(2 : Nat) ≤ 0 + 1 := by
  refine ⟨by decide, by decide, by decide⟩

/-- Claim C8, amended: no tile that results from a merge in the current move
is merged again — after the pass, every line (in processing order from the
leading edge) equals the compaction of its nonzero tiles with equal adjacent
pairs merged at most once each, left to right (`mergePairs`); a cell's stored
exponent may nevertheless grow by more than one when a different tile slides
into that cell. -/
theorem c8_theorem (n : Nat) (d : Dir) (g : List Nat) (e sc : Nat)
    (hn : 1 ≤ n) (hg : g.length = n * n) (hb : ∀ v ∈ g, v ≤ 254)
    (hsc : sc < 2 ^ 32) :
    ∀ i, i < n → lineOf n (moveHelper n d g e sc).grid d i =
      slideSpec n (lineOf n g d i) := by
  intro i hi
  exact (moveHelper_master n d g e sc hn hg hb hsc).2.2.1 i hi

/-- Witness for C8 on the 2×2 board `[1,1,0,0]`, moving left. -/
theorem c8_witness :
    lineOf 2 (moveHelper 2 Dir.left [1, 1, 0, 0] 2 0).grid Dir.left 0 =
      slideSpec 2 (lineOf 2 [1, 1, 0, 0] Dir.left 0) :=
  c8_theorem 2 Dir.left [1, 1, 0, 0] 2 0 (by decide) (by decide) (by decide)
    (by decide) 0 (by decide)

/-- Claim C1, counterexample: merging two exponent-1 tiles (two 2-tiles)
forms an exponent-2 tile (a 4-tile) but adds only `2 = 2^1` to the score,
not the formed tile's value `2^2 = 4`. -/
theorem c1_counterexample :
    (moveHelper 2 Dir.left [1, 1, 0, 0] 2 0).score = 2 ∧
    (moveHelper 2 Dir.left [1, 1, 0, 0] 2 0).grid = [2, 0, 0, 0] ∧
    (2 : Nat) ≠ 2 ^ 2 := by
  refine ⟨by decide, by decide, by decide⟩

/-- Claim C1, amended: for every merge performed during a move the score
increases by exactly `2^(cursor cell's exponent before it is incremented)` —
half the value of the newly formed tile (`mergeScore` adds `2^a` where the
formed exponent is `a + 1`) — and the score never changes except through
merges. -/
theorem c1_theorem (n : Nat) (d : Dir) (g : List Nat) (e sc : Nat)
    (hn : 1 ≤ n) (hg : g.length = n * n) (hb : ∀ v ∈ g, v ≤ 254)
    (hsc : sc < 2 ^ 32) :
    (moveHelper n d g e sc).score =
      (sc + ∑ x ∈ Finset.range n, mergeScore (compact (lineOf n g d x))) % 2 ^ 32 ∧
    ((∀ x, x < n → mergeCount (compact (lineOf n g d x)) = 0) →
      (moveHelper n d g e sc).score = sc) := by
  obtain ⟨-, -, -, -, hO5, -, -⟩ := moveHelper_master n d g e sc hn hg hb hsc
  refine ⟨hO5, fun hnone => ?_⟩
  rw [hO5]
  have hz : ∑ x ∈ Finset.range n, mergeScore (compact (lineOf n g d x)) = 0 := by
    apply Finset.sum_eq_zero
    intro x hx
    exact mergeScore_zero_of_count _ (hnone x (Finset.mem_range.mp hx))
  rw [hz, Nat.add_zero, Nat.mod_eq_of_lt hsc]

/-- Witness for C1's amended theorem on the 2×2 board `[1,1,0,0]`, left. -/
theorem c1_witness :
    ((moveHelper 2 Dir.left [1, 1, 0, 0] 2 0).score =
      (0 + ∑ x ∈ Finset.range 2, mergeScore (compact (lineOf 2 [1, 1, 0, 0] Dir.left x))) %
        2 ^ 32 ∧
    ((∀ x, x < 2 → mergeCount (compact (lineOf 2 [1, 1, 0, 0] Dir.left x)) = 0) →
      (moveHelper 2 Dir.left [1, 1, 0, 0] 2 0).score = 0)) :=
  c1_theorem 2 Dir.left [1, 1, 0, 0] 2 0 (by decide) (by decide) (by decide) (by decide)

/-- Claim C6: for every consistent engine state with at least one empty cell
and every direction, if the slide-and-merge pass leaves the board unchanged
then `move` performs no spawn and leaves the entire engine state unchanged;
if the pass changed the board, exactly one spawn occurs (one formerly-empty
cell becomes a tile, everything else as the pass left it). -/
theorem c6_theorem (n : Nat) (s : GridState) (d : Dir) (hn : 1 ≤ n)
    (hg : s.grid.length = n * n) (hb : ∀ v ∈ s.grid, v ≤ 254)
    (hsc : s.score < 2 ^ 32) (hc : s.empty = countZeros s.grid) (h0 : 0 < s.empty) :
    ((moveHelper n d s.grid s.empty s.score).grid = s.grid → move n s d = some s) ∧
    ((moveHelper n d s.grid s.empty s.score).grid ≠ s.grid →
      ∃ s' k, move n s d = some s' ∧ k < n * n ∧
        (moveHelper n d s.grid s.empty s.score).grid.getD k 0 = 0 ∧
        s'.grid = (moveHelper n d s.grid s.empty s.score).grid.set k
          (spawnValue (xorshiftNext (xorshiftNext s.prng))) ∧
        s'.grid.getD k 0 ≠ 0 ∧
        s'.empty + 1 = (moveHelper n d s.grid s.empty s.score).empty ∧
        s'.score = (moveHelper n d s.grid s.empty s.score).score ∧
        s'.state = s.state) := by
  obtain ⟨hO1, hO2, hO3, hO4, hO5, hO6, hO7⟩ :=
    moveHelper_master n d s.grid s.empty s.score hn hg hb hsc
  have hiff := moveHelper_modified_iff n d s.grid s.empty s.score hn hg hb hsc
  constructor
  · intro hsame
    have hm : (moveHelper n d s.grid s.empty s.score).modified = false := by
      cases hmod : (moveHelper n d s.grid s.empty s.score).modified with
      | false => rfl
      | true => exact absurd hsame (hiff.mp hmod)
    rw [move_not_modified n s d (by omega) hm]
    have hsum0 : ∑ x ∈ Finset.range n, mergeCount (compact (lineOf n s.grid d x)) = 0 := by
      have hcz : countZeros (moveHelper n d s.grid s.empty s.score).grid =
          countZeros s.grid := by rw [hsame]
      omega
    have hempty : (moveHelper n d s.grid s.empty s.score).empty = s.empty := by
      rw [hO4, hsum0, Nat.add_zero]
    have hscore : (moveHelper n d s.grid s.empty s.score).score = s.score := by
      rw [hO5]
      have hz : ∑ x ∈ Finset.range n, mergeScore (compact (lineOf n s.grid d x)) = 0 := by
        apply Finset.sum_eq_zero
        intro x hx
        apply mergeScore_zero_of_count
        have := Finset.sum_eq_zero_iff.mp hsum0 x hx
        exact this
      rw [hz, Nat.add_zero, Nat.mod_eq_of_lt hsc]
    rw [hsame, hempty, hscore]
  · intro hdiff
    have hm : (moveHelper n d s.grid s.empty s.score).modified = true := hiff.mpr hdiff
    rw [move_modified n s d (by omega) hm]
    have hcz' : (moveHelper n d s.grid s.empty s.score).empty =
        countZeros (moveHelper n d s.grid s.empty s.score).grid := by
      omega
    have hpos : 0 < (moveHelper n d s.grid s.empty s.score).empty := by
      rw [hO4]
      omega
    obtain ⟨k, hk, hk0, hspawn⟩ := spawnNewNumber_spec
      { s with grid := (moveHelper n d s.grid s.empty s.score).grid,
               empty := (moveHelper n d s.grid s.empty s.score).empty,
               score := (moveHelper n d s.grid s.empty s.score).score }
      (by simpa using hpos) (by dsimp only; omega)
    dsimp only at hk hk0 hspawn
    refine ⟨_, k, hspawn, by rw [hO1, hg] at hk; exact hk, hk0, rfl, ?_, ?_, rfl, rfl⟩
    · dsimp only
      rw [getD_set_self _ _ _ hk]
      exact spawnValue_ne_zero _
    · dsimp only
      omega

/-- Witness for C6 on the 2×2 board `[1,0,0,0]`, moving up (a no-op pass). -/
theorem c6_witness :
    ((moveHelper 2 Dir.up
        (GridState.mk 1 3 0 GState.running [1, 0, 0, 0]).grid
        (GridState.mk 1 3 0 GState.running [1, 0, 0, 0]).empty
        (GridState.mk 1 3 0 GState.running [1, 0, 0, 0]).score).grid =
      (GridState.mk 1 3 0 GState.running [1, 0, 0, 0]).grid →
      move 2 (GridState.mk 1 3 0 GState.running [1, 0, 0, 0]) Dir.up =
        some (GridState.mk 1 3 0 GState.running [1, 0, 0, 0])) ∧
    ((moveHelper 2 Dir.up
        (GridState.mk 1 3 0 GState.running [1, 0, 0, 0]).grid
        (GridState.mk 1 3 0 GState.running [1, 0, 0, 0]).empty
        (GridState.mk 1 3 0 GState.running [1, 0, 0, 0]).score).grid ≠
      (GridState.mk 1 3 0 GState.running [1, 0, 0, 0]).grid →
      ∃ s' k, move 2 (GridState.mk 1 3 0 GState.running [1, 0, 0, 0]) Dir.up = some s' ∧
        k < 2 * 2 ∧
        (moveHelper 2 Dir.up
          (GridState.mk 1 3 0 GState.running [1, 0, 0, 0]).grid
          (GridState.mk 1 3 0 GState.running [1, 0, 0, 0]).empty
          (GridState.mk 1 3 0 GState.running [1, 0, 0, 0]).score).grid.getD k 0 = 0 ∧
        s'.grid = (moveHelper 2 Dir.up
          (GridState.mk 1 3 0 GState.running [1, 0, 0, 0]).grid
          (GridState.mk 1 3 0 GState.running [1, 0, 0, 0]).empty
          (GridState.mk 1 3 0 GState.running [1, 0, 0, 0]).score).grid.set k
            (spawnValue (xorshiftNext (xorshiftNext
              (GridState.mk 1 3 0 GState.running [1, 0, 0, 0]).prng))) ∧
        s'.grid.getD k 0 ≠ 0 ∧
        s'.empty + 1 = (moveHelper 2 Dir.up
          (GridState.mk 1 3 0 GState.running [1, 0, 0, 0]).grid
          (GridState.mk 1 3 0 GState.running [1, 0, 0, 0]).empty
          (GridState.mk 1 3 0 GState.running [1, 0, 0, 0]).score).empty ∧
        s'.score = (moveHelper 2 Dir.up
          (GridState.mk 1 3 0 GState.running [1, 0, 0, 0]).grid
          (GridState.mk 1 3 0 GState.running [1, 0, 0, 0]).empty
          (GridState.mk 1 3 0 GState.running [1, 0, 0, 0]).score).score ∧
        s'.state = (GridState.mk 1 3 0 GState.running [1, 0, 0, 0]).state) :=
  c6_theorem 2 (GridState.mk 1 3 0 GState.running [1, 0, 0, 0]) Dir.up
    (by decide) (by decide) (by decide) (by decide) (by decide) (by decide)

/-- Claim C5: after construction and after every `move()` and `reset()` call
(on a consistent engine state), `empty_count` equals the literal number of
zero entries of the board returned by `data()`. -/
theorem c5_theorem (n : Nat) (hn : 1 ≤ n) :
    (∀ seed s0, initGrid n seed = some s0 → s0.empty = countZeros s0.grid) ∧
    (∀ (s : GridState) (d : Dir) (s' : GridState), s.grid.length = n * n →
      (∀ v ∈ s.grid, v ≤ 254) → s.score < 2 ^ 32 → s.empty = countZeros s.grid →
      move n s d = some s' → s'.empty = countZeros s'.grid) ∧
    (∀ s s', reset n s = some s' → s'.empty = countZeros s'.grid) := by
  have hnn : 0 < n * n := Nat.mul_pos hn hn
  refine ⟨?_, ?_, ?_⟩
  · intro seed s0 hinit
    obtain ⟨k, hk, hk0, hspawn⟩ := spawnNewNumber_spec
      { prng := xorshiftInit seed, empty := n * n, score := 0,
        state := GState.running, grid := List.replicate (n * n) 0 }
      (by simpa using hnn) (by simp [countZeros_replicate])
    unfold initGrid at hinit
    rw [hspawn] at hinit
    obtain rfl : _ = s0 := Option.some.inj hinit
    dsimp only at hk hk0 ⊢
    have := countZeros_set_spawn (List.replicate (n * n) 0) k _
      (by simpa using hk) (getD_replicate _ _)
      (spawnValue_ne_zero (xorshiftNext (xorshiftNext (xorshiftInit seed))))
    rw [countZeros_replicate] at this
    omega
  · intro s d s' hg hb hsc hc hmove
    by_cases h0 : s.empty = 0
    · rw [move_of_full n s d h0] at hmove
      obtain rfl : _ = s' := Option.some.inj hmove
      dsimp only
      omega
    · obtain ⟨hO1, hO2, hO3, hO4, hO5, hO6, hO7⟩ :=
        moveHelper_master n d s.grid s.empty s.score hn hg hb hsc
      cases hm : (moveHelper n d s.grid s.empty s.score).modified with
      | false =>
        rw [move_not_modified n s d h0 hm] at hmove
        obtain rfl : _ = s' := Option.some.inj hmove
        dsimp only
        omega
      | true =>
        rw [move_modified n s d h0 hm] at hmove
        obtain ⟨k, hk, hk0, hspawn⟩ := spawnNewNumber_spec
          { s with grid := (moveHelper n d s.grid s.empty s.score).grid,
                   empty := (moveHelper n d s.grid s.empty s.score).empty,
                   score := (moveHelper n d s.grid s.empty s.score).score }
          (by dsimp only; rw [hO4]; omega) (by dsimp only; omega)
        rw [hspawn] at hmove
        obtain rfl : _ = s' := Option.some.inj hmove
        dsimp only at hk hk0 ⊢
        have := countZeros_set_spawn _ k
          (spawnValue (xorshiftNext (xorshiftNext s.prng))) hk hk0
          (spawnValue_ne_zero _)
        omega
  · intro s s' hreset
    obtain ⟨k, hk, hk0, hspawn⟩ := spawnNewNumber_spec
      { s with grid := List.replicate (n * n) 0, empty := n * n }
      (by simpa using hnn) (by simp [countZeros_replicate])
    unfold reset at hreset
    rw [hspawn] at hreset
    obtain rfl : _ = s' := Option.some.inj hreset
    dsimp only at hk hk0 ⊢
    have := countZeros_set_spawn (List.replicate (n * n) 0) k _
      (by simpa using hk) (getD_replicate _ _)
      (spawnValue_ne_zero (xorshiftNext (xorshiftNext s.prng)))
    rw [countZeros_replicate] at this
    omega

/-- Witness for C5 on a concrete 2×2 move that merges and spawns. -/
theorem c5_witness :
    (∀ seed s0, initGrid 2 seed = some s0 → s0.empty = countZeros s0.grid) ∧
    (∀ (s : GridState) (d : Dir) (s' : GridState), s.grid.length = 2 * 2 →
      (∀ v ∈ s.grid, v ≤ 254) → s.score < 2 ^ 32 → s.empty = countZeros s.grid →
      move 2 s d = some s' → s'.empty = countZeros s'.grid) ∧
    (∀ s s', reset 2 s = some s' → s'.empty = countZeros s'.grid) :=
  c5_theorem 2 (by decide)

end Game2048
